import Mathlib

/-!
Verification of the composition engine of the claude-code-kit CLI.

The definitions below are shallow embeddings of the TypeScript sources:

* `src/cli/src/core/detector.ts` — `PluginManager.getPluginDependencies`,
  `PluginManager.checkCircularDependencies`, `PluginManager.getInstallationOrder`,
  `Installer.copyFile`;
* `src/cli/src/core/merger.ts` — `Merger.deepMerge`, `Merger.mergeSkillRules`,
  `Merger.mergeArrays`, `Merger.mergeSkillRulesFragments`;
* `src/cli/src/core/template-engine.ts` — `TemplateEngine.replaceVariables`,
  `TemplateEngine.extractVariables`;
* `src/cli/src/core/plugin-validator.ts` — `PluginValidator.validateManifest`.

JavaScript collections are modelled as lists: a JS object is an association
list whose keys are unique, a JS `Set` built from an array keeps the first
occurrence of each element, and JS string scanning is modelled on `List Char`.
-/

namespace CCKit

/-- First-occurrence deduplication through an accumulator of already-seen
elements, the behaviour of `Array.from(new Set(xs))` in JavaScript for
value-equality elements. -/
def dedupAcc [DecidableEq α] : List α → List α → List α
  | [], _ => []
  | a :: as, seen => if a ∈ seen then dedupAcc as seen else a :: dedupAcc as (a :: seen)

/-- First-occurrence deduplication, `Array.from(new Set(xs))`. -/
def dedupF [DecidableEq α] (l : List α) : List α := dedupAcc l []

/-- Recursive characterisation of first-occurrence deduplication, used for
reasoning. -/
def dedupW [DecidableEq α] : List α → List α
  | [] => []
  | a :: as => a :: dedupW (as.filter (fun x => x ≠ a))
termination_by l => l.length
decreasing_by
  simp only [List.length_cons]
  exact Nat.lt_succ_of_le (List.length_filter_le _ _)

theorem dedupAcc_eq_dedupW [DecidableEq α] :
    ∀ (l seen : List α), dedupAcc l seen = dedupW (l.filter (fun x => x ∉ seen)) := by
  intro l
  induction l with
  | nil => intro seen; simp [dedupAcc, dedupW]
  | cons a as ih =>
    intro seen
    rw [dedupAcc]
    split
    · next ha =>
      rw [List.filter_cons]
      simp only [ha]
      simp only [decide_not, decide_eq_true_eq] at *
      rw [if_neg (by simp [ha])]
      exact ih seen
    · next ha =>
      rw [List.filter_cons]
      rw [if_pos (by simp [ha])]
      rw [dedupW, ih (a :: seen)]
      congr 1
      rw [List.filter_filter]
      congr 1
      apply List.filter_congr
      intro x _
      simp only [List.mem_cons, decide_not, Bool.and_comm]
      by_cases hx : x = a <;> by_cases hs : x ∈ seen <;> simp [hx, hs]

theorem dedupF_eq_dedupW [DecidableEq α] (l : List α) : dedupF l = dedupW l := by
  rw [dedupF, dedupAcc_eq_dedupW]
  congr 1
  simpa using List.filter_true l

theorem mem_dedupW [DecidableEq α] {x : α} : ∀ {l : List α}, x ∈ dedupW l ↔ x ∈ l
  | [] => by simp [dedupW]
  | a :: as => by
    rw [dedupW]
    by_cases hxa : x = a
    · subst hxa; simp
    · simp only [List.mem_cons, hxa, false_or]
      rw [mem_dedupW (l := as.filter (fun x => x ≠ a))]
      simp [List.mem_filter, hxa]
termination_by l => l.length
decreasing_by
  simp only [List.length_cons]
  exact Nat.lt_succ_of_le (List.length_filter_le _ _)

theorem nodup_dedupW [DecidableEq α] : ∀ (l : List α), (dedupW l).Nodup
  | [] => by simp [dedupW]
  | a :: as => by
    rw [dedupW]
    refine List.nodup_cons.mpr ⟨?_, nodup_dedupW (as.filter (fun x => x ≠ a))⟩
    intro hmem
    have := (mem_dedupW).mp hmem
    simp [List.mem_filter] at this
termination_by l => l.length
decreasing_by
  simp only [List.length_cons]
  exact Nat.lt_succ_of_le (List.length_filter_le _ _)

theorem mem_dedupF [DecidableEq α] {x : α} {l : List α} : x ∈ dedupF l ↔ x ∈ l := by
  rw [dedupF_eq_dedupW]; exact mem_dedupW

theorem nodup_dedupF [DecidableEq α] (l : List α) : (dedupF l).Nodup := by
  rw [dedupF_eq_dedupW]; exact nodup_dedupW l

theorem filter_dedupW [DecidableEq α] (p : α → Bool) :
    ∀ (l : List α), (dedupW l).filter p = dedupW (l.filter p)
  | [] => by simp [dedupW]
  | a :: as => by
    rw [dedupW, List.filter_cons, List.filter_cons]
    by_cases hp : p a = true
    · rw [if_pos hp, if_pos hp, dedupW]
      congr 1
      rw [filter_dedupW p (as.filter (fun x => x ≠ a))]
      congr 1
      rw [List.filter_filter, List.filter_filter]
      apply List.filter_congr
      intro x _
      rw [Bool.and_comm]
    · rw [if_neg hp, if_neg hp]
      rw [filter_dedupW p (as.filter (fun x => x ≠ a))]
      congr 1
      rw [List.filter_filter]
      have : ∀ x ∈ as, (p x && decide (x ≠ a)) = p x := by
        intro x _
        by_cases hx : x = a
        · subst hx
          simp [hp]
        · simp [hx]
      calc List.filter (fun x => p x && decide (x ≠ a)) as
          = List.filter p as := List.filter_congr this
termination_by l => l.length
decreasing_by
  all_goals simp only [List.length_cons]
  all_goals exact Nat.lt_succ_of_le (List.length_filter_le _ _)

theorem filter_ne_dedupW_self [DecidableEq α] (l : List α) (a : α) :
    (dedupW (l.filter (fun x => x ≠ a))).filter (fun x => x ≠ a)
      = dedupW (l.filter (fun x => x ≠ a)) := by
  rw [filter_dedupW]
  congr 1
  rw [List.filter_filter]
  apply List.filter_congr
  intro x _
  by_cases hx : x = a <;> simp [hx]

theorem dedupW_dedupW_append [DecidableEq α] :
    ∀ (x y : List α), dedupW (dedupW x ++ y) = dedupW (x ++ y)
  | [], y => by simp [dedupW]
  | a :: as, y => by
    rw [List.cons_append, dedupW, dedupW, List.cons_append, dedupW]
    congr 1
    rw [List.filter_append, filter_ne_dedupW_self]
    rw [dedupW_dedupW_append (as.filter (fun x => x ≠ a)) (y.filter (fun x => x ≠ a))]
    rw [List.filter_append]
termination_by x _ => x.length
decreasing_by
  all_goals simp only [List.length_cons]
  all_goals exact Nat.lt_succ_of_le (List.length_filter_le _ _)

theorem dedupW_idem [DecidableEq α] (l : List α) : dedupW (dedupW l) = dedupW l := by
  have := dedupW_dedupW_append l []
  simpa using this

theorem dedupW_append_dedupW [DecidableEq α] :
    ∀ (x y : List α), dedupW (x ++ dedupW y) = dedupW (x ++ y)
  | [], y => by simpa using dedupW_idem y
  | a :: as, y => by
    rw [List.cons_append, dedupW, List.cons_append, dedupW]
    congr 1
    rw [List.filter_append, filter_dedupW]
    rw [dedupW_append_dedupW (as.filter (fun x => x ≠ a)) (y.filter (fun x => x ≠ a))]
    rw [List.filter_append]
termination_by x _ => x.length
decreasing_by
  all_goals simp only [List.length_cons]
  all_goals exact Nat.lt_succ_of_le (List.length_filter_le _ _)

theorem dedupF_dedupF_append [DecidableEq α] (x y : List α) :
    dedupF (dedupF x ++ y) = dedupF (x ++ y) := by
  rw [dedupF_eq_dedupW, dedupF_eq_dedupW, dedupF_eq_dedupW (x ++ y)]
  exact dedupW_dedupW_append x y

theorem dedupF_append_dedupF [DecidableEq α] (x y : List α) :
    dedupF (x ++ dedupF y) = dedupF (x ++ y) := by
  rw [dedupF_eq_dedupW, dedupF_eq_dedupW, dedupF_eq_dedupW (x ++ y)]
  exact dedupW_append_dedupW x y

/-! ## Dependency resolver

`PluginManager` reads plugin manifests from disk; for dependency resolution the
only observable data is the map from a plugin name to its declared
`dependencies.plugins`.  We model the set of available plugins as an
association list `DepGraph`; a name that is absent models a plugin whose
`plugin.json` does not exist (`getPlugin` returns `null`), and
`getPluginDependencies` returns `[]` for it exactly as the source does. -/

abbrev DepGraph := List (String × List String)

/-- Association-list lookup, the observable behaviour of reading
`plugins/<name>/plugin.json`. -/
def lookupKey : List (String × β) → String → Option β
  | [], _ => none
  | (k, v) :: rest, key => if k = key then some v else lookupKey rest key

/-- Embedding of `PluginManager.getPluginDependencies` (detector.ts 1641-1648):
a missing plugin, or one without `dependencies.plugins`, yields `[]`. -/
def getPluginDependencies (avail : DepGraph) (name : String) : List String :=
  (lookupKey avail name).getD []

/-- The names of the available plugins. -/
def availNames (avail : DepGraph) : List String := avail.map Prod.fst

/-- Embedding of `PluginManager.checkCircularDependencies` (detector.ts
1653-1673).  The mutable `visited` set behaves as a path-local set (each
recursive call removes its own name before returning), so it is passed
functionally.  `fuel` bounds the recursion depth; the outer `none` means the
fuel ran out and never arises for sufficient fuel.  The dependency loop
returns the first cycle found and otherwise keeps scanning. -/
def checkCircAux (avail : DepGraph) : Nat → String → List String → Option (Option String)
  | 0, _, _ => none
  | fuel + 1, name, visited =>
    if name ∈ visited then some (some name)
    else
      (getPluginDependencies avail name).foldl
        (fun acc d =>
          match acc with
          | some none => checkCircAux avail fuel d (name :: visited)
          | other => other)
        (some none)

/-- The dependency loop of `checkCircularDependencies`, named for reasoning. -/
def checkCircList (avail : DepGraph) (fuel : Nat) (ds visited : List String) :
    Option (Option String) :=
  ds.foldl
    (fun acc d =>
      match acc with
      | some none => checkCircAux avail fuel d visited
      | other => other)
    (some none)

theorem checkCircAux_succ (avail : DepGraph) (fuel : Nat) (name : String)
    (visited : List String) :
    checkCircAux avail (fuel + 1) name visited =
      if name ∈ visited then some (some name)
      else checkCircList avail fuel (getPluginDependencies avail name) (name :: visited) := rfl

theorem checkCircList_nil (avail : DepGraph) (fuel : Nat) (visited : List String) :
    checkCircList avail fuel [] visited = some none := rfl

theorem checkCircList_stuck (avail : DepGraph) (fuel : Nat) (ds : List String)
    (visited : List String) (acc : Option (Option String)) (h : acc ≠ some none) :
    ds.foldl
      (fun acc d =>
        match acc with
        | some none => checkCircAux avail fuel d visited
        | other => other) acc = acc := by
  induction ds with
  | nil => simp
  | cons d ds ih =>
    rw [List.foldl_cons]
    rcases acc with _ | (_ | c)
    · exact ih
    · exact absurd rfl h
    · exact ih

theorem checkCircList_cons (avail : DepGraph) (fuel : Nat) (d : String) (ds : List String)
    (visited : List String) :
    checkCircList avail fuel (d :: ds) visited =
      match checkCircAux avail fuel d visited with
      | none => none
      | some (some c) => some (some c)
      | some none => checkCircList avail fuel ds visited := by
  rw [checkCircList, List.foldl_cons]
  match h : checkCircAux avail fuel d visited with
  | none =>
    simp only
    exact checkCircList_stuck avail fuel ds visited none (by simp)
  | some (some c) =>
    simp only
    exact checkCircList_stuck avail fuel ds visited (some (some c)) (by simp)
  | some none => rfl

/-- Embedding of `checkCircularDependencies(pluginName)` called with the
default fresh `visited` set. -/
def checkCircularDependencies (avail : DepGraph) (fuel : Nat) (name : String) :
    Option (Option String) :=
  checkCircAux avail fuel name []

/-- The error thrown by `getInstallationOrder`:
`Circular dependency detected in plugin ${name}: ${circular}`. -/
structure ResolveErr where
  name : String
  circular : String
deriving DecidableEq, Repr

/-- Rendering of the thrown `Error`'s message string. -/
def ResolveErr.message (e : ResolveErr) : String :=
  "Circular dependency detected in plugin " ++ e.name ++ ": " ++ e.circular

/-- Resolver state: the `visited` set and the `order` array of
`getInstallationOrder`. -/
structure RState where
  visited : List String
  order : List String
deriving DecidableEq, Repr

/-- Embedding of the inner `visit` closure of
`PluginManager.getInstallationOrder` (detector.ts 1678-1712).  `cf` is the
fuel given to each fresh `checkCircularDependencies` call; `fuel` bounds the
depth of `visit` itself and `none` signals fuel exhaustion.  The dependency
loop threads the state and stops at the first thrown error. -/
def visitOne (avail : DepGraph) (cf : Nat) :
    Nat → String → RState → Option (Except ResolveErr RState)
  | 0, _, _ => none
  | fuel + 1, name, s =>
    if name ∈ s.visited then some (.ok s)
    else
      match checkCircularDependencies avail cf name with
      | none => none
      | some (some c) => some (.error ⟨name, c⟩)
      | some none =>
        match (getPluginDependencies avail name).foldl
            (fun (acc : Option (Except ResolveErr RState)) d =>
              match acc with
              | some (Except.ok s') => visitOne avail cf fuel d s'
              | other => other)
            (some (Except.ok ⟨name :: s.visited, s.order⟩)) with
        | none => none
        | some (Except.error e) => some (Except.error e)
        | some (Except.ok s') => some (Except.ok ⟨s'.visited, s'.order ++ [name]⟩)

/-- Sequential `visit` over a list of names (the dependency loop inside
`visit`, and the top-level loop over `pluginNames`). -/
def visitList (avail : DepGraph) (cf : Nat) (fuel : Nat) (ns : List String) (s : RState) :
    Option (Except ResolveErr RState) :=
  ns.foldl
    (fun acc d =>
      match acc with
      | some (.ok s') => visitOne avail cf fuel d s'
      | other => other)
    (some (.ok s))

theorem visitList_nil (avail : DepGraph) (cf fuel : Nat) (s : RState) :
    visitList avail cf fuel [] s = some (.ok s) := rfl

theorem visitList_stuck (avail : DepGraph) (cf fuel : Nat) (ds : List String)
    (acc : Option (Except ResolveErr RState)) (h : ∀ s, acc ≠ some (.ok s)) :
    ds.foldl
      (fun acc d =>
        match acc with
        | some (.ok s') => visitOne avail cf fuel d s'
        | other => other) acc = acc := by
  induction ds with
  | nil => simp
  | cons d ds ih =>
    rw [List.foldl_cons]
    rcases acc with _ | (e | s')
    · exact ih
    · exact ih
    · exact absurd rfl (h s')

theorem visitList_cons (avail : DepGraph) (cf fuel : Nat) (n : String) (ns : List String)
    (s : RState) :
    visitList avail cf fuel (n :: ns) s =
      match visitOne avail cf fuel n s with
      | none => none
      | some (.error e) => some (.error e)
      | some (.ok s') => visitList avail cf fuel ns s' := by
  show List.foldl
      (fun acc d =>
        match acc with
        | some (Except.ok s') => visitOne avail cf fuel d s'
        | other => other) (visitOne avail cf fuel n s) ns =
    match visitOne avail cf fuel n s with
    | none => none
    | some (.error e) => some (.error e)
    | some (.ok s') => visitList avail cf fuel ns s'
  match h : visitOne avail cf fuel n s with
  | none =>
    simp only
    exact visitList_stuck avail cf fuel ns none (by simp)
  | some (.error e) =>
    simp only
    exact visitList_stuck avail cf fuel ns (some (.error e)) (by simp)
  | some (.ok s') => rfl

theorem visitOne_succ (avail : DepGraph) (cf fuel : Nat) (name : String) (s : RState) :
    visitOne avail cf (fuel + 1) name s =
      if name ∈ s.visited then some (.ok s)
      else
        match checkCircularDependencies avail cf name with
        | none => none
        | some (some c) => some (.error ⟨name, c⟩)
        | some none =>
          match visitList avail cf fuel (getPluginDependencies avail name)
              ⟨name :: s.visited, s.order⟩ with
          | none => none
          | some (.error e) => some (.error e)
          | some (.ok s') => some (.ok ⟨s'.visited, s'.order ++ [name]⟩) := rfl

instance {ε α : Type} [DecidableEq ε] [DecidableEq α] : DecidableEq (Except ε α) := by
  intro a b
  match a, b with
  | .ok x, .ok y =>
    exact if h : x = y then isTrue (by rw [h]) else isFalse (by simp [h])
  | .error x, .error y =>
    exact if h : x = y then isTrue (by rw [h]) else isFalse (by simp [h])
  | .ok _, .error _ => exact isFalse (by simp)
  | .error _, .ok _ => exact isFalse (by simp)

/-- Embedding of `PluginManager.getInstallationOrder` (detector.ts 1678-1712).
Returns `some (.ok order)` on success, `some (.error e)` when the source
throws its circular-dependency `Error`, and `none` only on fuel exhaustion. -/
def getInstallationOrder (avail : DepGraph) (fuel cf : Nat) (pluginNames : List String) :
    Option (Except ResolveErr (List String)) :=
  match visitList avail cf fuel pluginNames ⟨[], []⟩ with
  | none => none
  | some (.error e) => some (.error e)
  | some (.ok s) => some (.ok s.order)

/-- Dependency path of length at least one: `DepPath avail a b` holds when `b`
is reachable from `a` along declared `dependencies.plugins` edges. -/
inductive DepPath (avail : DepGraph) : String → String → Prop
  | single {a b : String} : b ∈ getPluginDependencies avail a → DepPath avail a b
  | cons {a b c : String} : b ∈ getPluginDependencies avail a → DepPath avail b c →
      DepPath avail a c

/-- Reflexive closure of `DepPath`. -/
def ReachStar (avail : DepGraph) (a b : String) : Prop :=
  a = b ∨ DepPath avail a b

/-- The dependency graph has no cycle. -/
def Acyclic (avail : DepGraph) : Prop := ∀ n, ¬ DepPath avail n n

theorem DepPath.trans {avail : DepGraph} {a b c : String}
    (h₁ : DepPath avail a b) (h₂ : DepPath avail b c) : DepPath avail a c := by
  induction h₁ with
  | single h => exact .cons h h₂
  | cons h _ ih => exact .cons h (ih h₂)

theorem DepPath.snoc {avail : DepGraph} {a b c : String}
    (h₁ : DepPath avail a b) (h₂ : c ∈ getPluginDependencies avail b) :
    DepPath avail a c :=
  h₁.trans (.single h₂)

theorem DepPath.first_edge {avail : DepGraph} {a c : String} (h : DepPath avail a c) :
    ∃ d ∈ getPluginDependencies avail a, ReachStar avail d c := by
  cases h with
  | single hedge => exact ⟨c, hedge, Or.inl rfl⟩
  | cons hedge hpath => exact ⟨_, hedge, Or.inr hpath⟩

/-- The number of available plugin names not yet visited; the measure showing
the traversals cannot exhaust their fuel. -/
def countNew (avail : DepGraph) (visited : List String) : Nat :=
  ((availNames avail).filter (fun x => x ∉ visited)).length

theorem length_filter_mono {α : Type} (l : List α) (p q : α → Bool)
    (h : ∀ x ∈ l, p x = true → q x = true) :
    (l.filter p).length ≤ (l.filter q).length := by
  induction l with
  | nil => simp
  | cons a as ih =>
    rw [List.filter_cons, List.filter_cons]
    have ih' := ih (fun x hx => h x (List.mem_cons_of_mem a hx))
    by_cases hp : p a = true
    · rw [if_pos hp, if_pos (h a (by simp) hp)]
      simpa using ih'
    · rw [if_neg hp]
      split
      · simp only [List.length_cons]
        omega
      · exact ih'

theorem countNew_mono {avail : DepGraph} {v v' : List String}
    (h : ∀ x ∈ v, x ∈ v') : countNew avail v' ≤ countNew avail v := by
  apply length_filter_mono
  intro x _ hx
  simp only [decide_eq_true_eq, decide_not, Bool.not_eq_false'] at *
  simp only [Bool.not_eq_true', decide_eq_false_iff_not] at *
  exact fun hm => hx (h x hm)

theorem filter_visited_lt {visited : List String} {name : String} (hnv : name ∉ visited) :
    ∀ (l : List String), name ∈ l →
      (l.filter (fun x => x ∉ name :: visited)).length <
        (l.filter (fun x => x ∉ visited)).length := by
  intro l
  induction l with
  | nil => intro h; simp at h
  | cons a as ih =>
    intro hmem
    rw [List.filter_cons, List.filter_cons]
    have hmono : (as.filter (fun x => x ∉ name :: visited)).length ≤
        (as.filter (fun x => x ∉ visited)).length := by
      apply length_filter_mono
      intro x _ hx
      simp only [List.mem_cons, decide_eq_true_eq, decide_not, Bool.not_eq_false',
        Bool.not_eq_true', decide_eq_false_iff_not] at *
      exact fun hv => hx (Or.inr hv)
    by_cases ha : a = name
    · subst ha
      rw [if_neg (by simp), if_pos (by simpa using hnv)]
      simp only [List.length_cons]
      omega
    · have hmem' : name ∈ as := by
        rcases List.mem_cons.mp hmem with h | h
        · exact absurd h.symm ha
        · exact h
      by_cases hav : a ∈ visited
      · rw [if_neg (by simp [hav]), if_neg (by simp [hav])]
        exact ih hmem'
      · have hanv : a ∉ name :: visited := by
          simp only [List.mem_cons]
          rintro (h | h)
          · exact ha h
          · exact hav h
        rw [if_pos (by simpa using hanv), if_pos (by simpa using hav)]
        simp only [List.length_cons]
        have := ih hmem'
        omega

theorem countNew_cons_lt {avail : DepGraph} {visited : List String} {name : String}
    (hmem : name ∈ availNames avail) (hnv : name ∉ visited) :
    countNew avail (name :: visited) < countNew avail visited :=
  filter_visited_lt hnv (availNames avail) hmem

theorem mem_keys_of_lookupKey_eq_some {β : Type} :
    ∀ {l : List (String × β)} {key : String} {v : β},
      lookupKey l key = some v → key ∈ l.map Prod.fst := by
  intro l
  induction l with
  | nil => intro key v h; simp [lookupKey] at h
  | cons kv rest ih =>
    intro key v h
    obtain ⟨k, v'⟩ := kv
    rw [lookupKey] at h
    by_cases hk : k = key
    · subst hk; simp
    · rw [if_neg hk] at h
      simpa using Or.inr (ih h)

theorem mem_availNames_of_deps {avail : DepGraph} {name : String}
    (h : getPluginDependencies avail name ≠ []) : name ∈ availNames avail := by
  unfold getPluginDependencies at h
  cases hl : lookupKey avail name with
  | none => rw [hl] at h; simp at h
  | some l => exact mem_keys_of_lookupKey_eq_some hl

/-- The path invariant of `checkCircularDependencies`: the visited list, most
recent first, is a dependency chain ending at the name being visited. -/
def chainTo (avail : DepGraph) : List String → String → Prop
  | [], _ => True
  | v :: vs, name => name ∈ getPluginDependencies avail v ∧ chainTo avail vs v

theorem depPath_of_chainTo {avail : DepGraph} :
    ∀ {vs : List String} {target start : String},
      target ∈ vs → chainTo avail vs start → DepPath avail target start := by
  intro vs
  induction vs with
  | nil => intro t s h _; simp at h
  | cons v vs ih =>
    intro t s hmem hchain
    obtain ⟨hedge, hrest⟩ := hchain
    rcases List.mem_cons.mp hmem with rfl | hmem'
    · exact DepPath.single hedge
    · exact (ih hmem' hrest).snoc hedge

theorem checkCircList_some_some {avail : DepGraph} {fuel : Nat} :
    ∀ {ds visited : List String} {c : String},
      checkCircList avail fuel ds visited = some (some c) →
      ∃ d ∈ ds, checkCircAux avail fuel d visited = some (some c) := by
  intro ds
  induction ds with
  | nil => intro visited c h; rw [checkCircList_nil] at h; simp at h
  | cons d ds ih =>
    intro visited c h
    rw [checkCircList_cons] at h
    cases ha : checkCircAux avail fuel d visited with
    | none => rw [ha] at h; simp at h
    | some o =>
      cases o with
      | none =>
        rw [ha] at h
        obtain ⟨d', hd', hres⟩ := ih h
        exact ⟨d', List.mem_cons_of_mem d hd', hres⟩
      | some c' =>
        rw [ha] at h
        simp only [Option.some.injEq] at h
        exact ⟨d, List.mem_cons_self d ds, by rw [ha, h]⟩

theorem checkCircList_some_none {avail : DepGraph} {fuel : Nat} :
    ∀ {ds visited : List String},
      checkCircList avail fuel ds visited = some none →
      ∀ d ∈ ds, checkCircAux avail fuel d visited = some none := by
  intro ds
  induction ds with
  | nil => intro visited _ d hd; simp at hd
  | cons d ds ih =>
    intro visited h d' hd'
    rw [checkCircList_cons] at h
    cases ha : checkCircAux avail fuel d visited with
    | none => rw [ha] at h; simp at h
    | some o =>
      cases o with
      | none =>
        rw [ha] at h
        rcases List.mem_cons.mp hd' with rfl | hd''
        · exact ha
        · exact ih h d' hd''
      | some c' => rw [ha] at h; simp at h

theorem checkCircAux_cycle {avail : DepGraph} :
    ∀ (fuel : Nat) (name : String) (visited : List String) (c : String),
      chainTo avail visited name →
      checkCircAux avail fuel name visited = some (some c) → DepPath avail c c := by
  intro fuel
  induction fuel with
  | zero => intro name visited c _ h; simp [checkCircAux] at h
  | succ fuel ih =>
    intro name visited c hchain h
    rw [checkCircAux_succ] at h
    split at h
    · next hmem =>
      simp only [Option.some.injEq] at h
      subst h
      exact depPath_of_chainTo hmem hchain
    · next hmem =>
      obtain ⟨d, hd, hres⟩ := checkCircList_some_some h
      exact ih d (name :: visited) c ⟨hd, hchain⟩ hres

theorem checkCircList_ne_none {avail : DepGraph} {fuel : Nat} :
    ∀ {ds visited : List String},
      (∀ d ∈ ds, checkCircAux avail fuel d visited ≠ none) →
      checkCircList avail fuel ds visited ≠ none := by
  intro ds
  induction ds with
  | nil => intro visited _; rw [checkCircList_nil]; simp
  | cons d ds ih =>
    intro visited h
    rw [checkCircList_cons]
    cases ha : checkCircAux avail fuel d visited with
    | none => exact absurd ha (h d (List.mem_cons_self d ds))
    | some o =>
      cases o with
      | none => exact ih (fun d' hd' => h d' (List.mem_cons_of_mem d hd'))
      | some c => simp

theorem checkCircAux_ne_none {avail : DepGraph} :
    ∀ (fuel : Nat) (visited : List String) (name : String),
      countNew avail visited < fuel →
      checkCircAux avail fuel name visited ≠ none := by
  intro fuel
  induction fuel with
  | zero => intro visited name h; omega
  | succ fuel ih =>
    intro visited name hcount
    rw [checkCircAux_succ]
    split
    · simp
    · next hmem =>
      apply checkCircList_ne_none
      intro d hd
      have hnav : name ∈ availNames avail :=
        mem_availNames_of_deps (fun h0 => by rw [h0] at hd; simp at hd)
      have hlt : countNew avail (name :: visited) < countNew avail visited :=
        countNew_cons_lt hnav hmem
      exact ih (name :: visited) d (by omega)

theorem checkCircAux_some_none_not_mem {avail : DepGraph} {fuel : Nat}
    {name : String} {visited : List String}
    (h : checkCircAux avail fuel name visited = some none) : name ∉ visited := by
  cases fuel with
  | zero => simp [checkCircAux] at h
  | succ fuel =>
    rw [checkCircAux_succ] at h
    intro hmem
    rw [if_pos hmem] at h
    simp at h

theorem checkCircAux_none_sound {avail : DepGraph} :
    ∀ (fuel : Nat) (name : String) (visited : List String),
      checkCircAux avail fuel name visited = some none →
      ∀ c, DepPath avail name c → c ∉ name :: visited := by
  intro fuel
  induction fuel with
  | zero => intro name visited h; simp [checkCircAux] at h
  | succ fuel ih =>
    intro name visited h c hpath
    rw [checkCircAux_succ] at h
    split at h
    · simp at h
    · next hmem =>
      have hkids := checkCircList_some_none h
      cases hpath with
      | single hedge =>
        have hc := checkCircAux_some_none_not_mem (hkids c hedge)
        exact hc
      | cons hedge hpath' =>
        next d =>
        have := ih d (name :: visited) (hkids d hedge) c hpath'
        intro hcmem
        exact this (List.mem_cons_of_mem d hcmem)

theorem checkCircAux_none_no_cycle {avail : DepGraph} :
    ∀ (fuel : Nat) (name : String) (visited : List String),
      checkCircAux avail fuel name visited = some none →
      ∀ c, ReachStar avail name c → ¬ DepPath avail c c := by
  intro fuel
  induction fuel with
  | zero => intro name visited h; simp [checkCircAux] at h
  | succ fuel ih =>
    intro name visited h c hreach hcc
    rcases hreach with heq | hpath
    · subst heq
      exact checkCircAux_none_sound (fuel + 1) name visited h name hcc
        (List.mem_cons_self name visited)
    · rw [checkCircAux_succ] at h
      split at h
      · simp at h
      · next hmem =>
        have hkids := checkCircList_some_none h
        obtain ⟨d, hd, hreach'⟩ := hpath.first_edge
        exact ih d (name :: visited) (hkids d hd) c hreach' hcc

/-- Under acyclicity and sufficient fuel, the cycle check passes. -/
theorem checkCirc_acyclic {avail : DepGraph} (hA : Acyclic avail) {cf : Nat}
    (hcf : (availNames avail).length < cf) (name : String) :
    checkCircularDependencies avail cf name = some none := by
  unfold checkCircularDependencies
  have hne : checkCircAux avail cf name [] ≠ none := by
    apply checkCircAux_ne_none
    unfold countNew
    calc ((availNames avail).filter (fun x => x ∉ ([] : List String))).length
        ≤ (availNames avail).length := List.length_filter_le _ _
      _ < cf := hcf
  cases hres : checkCircAux avail cf name [] with
  | none => exact absurd hres hne
  | some o =>
    cases o with
    | none => rfl
    | some c =>
      have := checkCircAux_cycle cf name [] c trivial hres
      exact absurd this (hA c)

theorem countNew_nil (avail : DepGraph) : countNew avail [] = (availNames avail).length := by
  unfold countNew
  congr 1
  apply List.filter_eq_self.mpr
  intro x _
  simp

/-- Facts about a successful `visit`, with no acyclicity assumption: the
visited set grows, every newly visited name passed its fresh cycle check, and
the visited name (resp. every listed name) ends up visited. -/
theorem visit_ok_facts (avail : DepGraph) (cf : Nat) :
    ∀ fuel : Nat,
      (∀ (name : String) (s s' : RState),
        visitOne avail cf fuel name s = some (.ok s') →
        (∀ x ∈ s.visited, x ∈ s'.visited) ∧
        (∀ x ∈ s'.visited,
          x ∈ s.visited ∨ checkCircularDependencies avail cf x = some none) ∧
        name ∈ s'.visited) ∧
      (∀ (ns : List String) (s s' : RState),
        visitList avail cf fuel ns s = some (.ok s') →
        (∀ x ∈ s.visited, x ∈ s'.visited) ∧
        (∀ x ∈ s'.visited,
          x ∈ s.visited ∨ checkCircularDependencies avail cf x = some none) ∧
        (∀ n ∈ ns, n ∈ s'.visited)) := by
  intro fuel
  induction fuel with
  | zero =>
    constructor
    · intro name s s' h
      simp [visitOne] at h
    · intro ns s s' h
      cases ns with
      | nil =>
        rw [visitList_nil] at h
        simp only [Option.some.injEq, Except.ok.injEq] at h
        subst h
        exact ⟨fun x hx => hx, fun x hx => Or.inl hx, by simp⟩
      | cons n ns =>
        rw [visitList_cons] at h
        simp [visitOne] at h
  | succ fuel ih =>
    have part1 : ∀ (name : String) (s s' : RState),
        visitOne avail cf (fuel + 1) name s = some (.ok s') →
        (∀ x ∈ s.visited, x ∈ s'.visited) ∧
        (∀ x ∈ s'.visited,
          x ∈ s.visited ∨ checkCircularDependencies avail cf x = some none) ∧
        name ∈ s'.visited := by
      intro name s s' h
      rw [visitOne_succ] at h
      split at h
      · next hmem =>
        simp only [Option.some.injEq, Except.ok.injEq] at h
        subst h
        exact ⟨fun x hx => hx, fun x hx => Or.inl hx, hmem⟩
      · next hmem =>
        cases hcc : checkCircularDependencies avail cf name with
        | none => rw [hcc] at h; simp at h
        | some o =>
          cases o with
          | some c => rw [hcc] at h; simp at h
          | none =>
            rw [hcc] at h
            cases hrun : visitList avail cf fuel (getPluginDependencies avail name)
                ⟨name :: s.visited, s.order⟩ with
            | none => rw [hrun] at h; simp at h
            | some r =>
              cases r with
              | error e => rw [hrun] at h; simp at h
              | ok s₂ =>
                rw [hrun] at h
                simp only [Option.some.injEq, Except.ok.injEq] at h
                subst h
                obtain ⟨hgrow, horig, _⟩ := (ih.2) _ _ _ hrun
                refine ⟨?_, ?_, ?_⟩
                · intro x hx
                  exact hgrow x (List.mem_cons_of_mem name hx)
                · intro x hx
                  rcases horig x hx with hx' | hx'
                  · rcases List.mem_cons.mp hx' with rfl | hx''
                    · exact Or.inr hcc
                    · exact Or.inl hx''
                  · exact Or.inr hx'
                · exact hgrow name (List.mem_cons_self name s.visited)
    refine ⟨part1, ?_⟩
    intro ns
    induction ns with
    | nil =>
      intro s s' h
      rw [visitList_nil] at h
      simp only [Option.some.injEq, Except.ok.injEq] at h
      subst h
      exact ⟨fun x hx => hx, fun x hx => Or.inl hx, by simp⟩
    | cons n rest ihns =>
      intro s s' h
      rw [visitList_cons] at h
      cases hone : visitOne avail cf (fuel + 1) n s with
      | none => rw [hone] at h; simp at h
      | some r =>
        cases r with
        | error e => rw [hone] at h; simp at h
        | ok s₁ =>
          rw [hone] at h
          obtain ⟨hg₁, ho₁, hn₁⟩ := part1 _ _ _ hone
          obtain ⟨hg₂, ho₂, hr₂⟩ := ihns s₁ s' h
          refine ⟨fun x hx => hg₂ x (hg₁ x hx), ?_, ?_⟩
          · intro x hx
            rcases ho₂ x hx with hx' | hx'
            · exact ho₁ x hx'
            · exact Or.inr hx'
          · intro m hm
            rcases List.mem_cons.mp hm with rfl | hm'
            · exact hg₂ m hn₁
            · exact hr₂ m hm'

/-- A thrown error always originates from a fresh cycle check that reported a
cycle for the plugin named in the error. -/
theorem visit_error_src (avail : DepGraph) (cf : Nat) :
    ∀ fuel : Nat,
      (∀ (name : String) (s : RState) (e : ResolveErr),
        visitOne avail cf fuel name s = some (.error e) →
        checkCircularDependencies avail cf e.name = some (some e.circular)) ∧
      (∀ (ns : List String) (s : RState) (e : ResolveErr),
        visitList avail cf fuel ns s = some (.error e) →
        checkCircularDependencies avail cf e.name = some (some e.circular)) := by
  intro fuel
  induction fuel with
  | zero =>
    constructor
    · intro name s e h
      simp [visitOne] at h
    · intro ns s e h
      cases ns with
      | nil => rw [visitList_nil] at h; simp at h
      | cons n rest => rw [visitList_cons] at h; simp [visitOne] at h
  | succ fuel ih =>
    have part1 : ∀ (name : String) (s : RState) (e : ResolveErr),
        visitOne avail cf (fuel + 1) name s = some (.error e) →
        checkCircularDependencies avail cf e.name = some (some e.circular) := by
      intro name s e h
      rw [visitOne_succ] at h
      split at h
      · simp at h
      · cases hcc : checkCircularDependencies avail cf name with
        | none => rw [hcc] at h; simp at h
        | some o =>
          cases o with
          | some c =>
            rw [hcc] at h
            simp only [Option.some.injEq, Except.error.injEq] at h
            subst h
            exact hcc
          | none =>
            rw [hcc] at h
            cases hrun : visitList avail cf fuel (getPluginDependencies avail name)
                ⟨name :: s.visited, s.order⟩ with
            | none => rw [hrun] at h; simp at h
            | some r =>
              cases r with
              | error e' =>
                rw [hrun] at h
                simp only [Option.some.injEq, Except.error.injEq] at h
                subst h
                exact ih.2 _ _ _ hrun
              | ok s₂ => rw [hrun] at h; simp at h
    refine ⟨part1, ?_⟩
    intro ns
    induction ns with
    | nil =>
      intro s e h
      rw [visitList_nil] at h
      simp at h
    | cons n rest ihns =>
      intro s e h
      rw [visitList_cons] at h
      cases hone : visitOne avail cf (fuel + 1) n s with
      | none => rw [hone] at h; simp at h
      | some r =>
        cases r with
        | error e' =>
          rw [hone] at h
          simp only [Option.some.injEq, Except.error.injEq] at h
          subst h
          exact part1 _ _ _ hone
        | ok s₁ =>
          rw [hone] at h
          exact ihns s₁ e h

/-- With sufficient fuel, `visit` never exhausts it. -/
theorem visit_ne_none (avail : DepGraph) (cf : Nat)
    (hcf : (availNames avail).length < cf) :
    ∀ fuel : Nat,
      (∀ (name : String) (s : RState), countNew avail s.visited < fuel →
        visitOne avail cf fuel name s ≠ none) ∧
      (∀ (ns : List String) (s : RState), countNew avail s.visited < fuel →
        visitList avail cf fuel ns s ≠ none) := by
  intro fuel
  induction fuel with
  | zero =>
    constructor
    · intro name s h; omega
    · intro ns s h; omega
  | succ fuel ih =>
    have hccne : ∀ name, checkCircularDependencies avail cf name ≠ none := by
      intro name
      apply checkCircAux_ne_none
      rw [countNew_nil]
      exact hcf
    have part1 : ∀ (name : String) (s : RState), countNew avail s.visited < fuel + 1 →
        visitOne avail cf (fuel + 1) name s ≠ none := by
      intro name s hcount
      rw [visitOne_succ]
      split
      · simp
      · next hmem =>
        cases hcc : checkCircularDependencies avail cf name with
        | none => exact absurd hcc (hccne name)
        | some o =>
          cases o with
          | some c => simp
          | none =>
            by_cases hdeps : getPluginDependencies avail name = []
            · rw [hdeps, visitList_nil]
              simp
            · have hnav : name ∈ availNames avail := mem_availNames_of_deps hdeps
              have hlt : countNew avail (name :: s.visited) < fuel := by
                have := @countNew_cons_lt avail s.visited name hnav hmem
                omega
              have hrunne := ih.2 (getPluginDependencies avail name)
                ⟨name :: s.visited, s.order⟩ hlt
              cases hrun : visitList avail cf fuel (getPluginDependencies avail name)
                  ⟨name :: s.visited, s.order⟩ with
              | none => exact absurd hrun hrunne
              | some r =>
                cases r with
                | error e => simp
                | ok s₂ => simp
    refine ⟨part1, ?_⟩
    intro ns
    induction ns with
    | nil =>
      intro s hcount
      rw [visitList_nil]
      simp
    | cons n rest ihns =>
      intro s hcount
      rw [visitList_cons]
      cases hone : visitOne avail cf (fuel + 1) n s with
      | none => exact absurd hone (part1 n s hcount)
      | some r =>
        cases r with
        | error e => simp
        | ok s₁ =>
          have hgrow := ((visit_ok_facts avail cf (fuel + 1)).1 _ _ _ hone).1
          have : countNew avail s₁.visited ≤ countNew avail s.visited :=
            countNew_mono hgrow
          exact ihns s₁ (by omega)

/-- Invariant of the resolver state: the order is a subset of the visited set,
holds no duplicates, and is dependency-closed with every dependency placed
strictly earlier than its dependent. -/
structure RInv (avail : DepGraph) (s : RState) : Prop where
  sub : ∀ a ∈ s.order, a ∈ s.visited
  nodup : s.order.Nodup
  closed : ∀ a ∈ s.order, ∀ b ∈ getPluginDependencies avail a,
    b ∈ s.order ∧ s.order.indexOf b < s.order.indexOf a

/-- The main safety theorem for the acyclic case: `visit` succeeds, extends
the order by fresh names reachable from the visited name, puts the visited
name into the order, and preserves the dependency-closure invariant. -/
theorem visit_acyclic (avail : DepGraph) (cf : Nat) (hA : Acyclic avail)
    (hcf : (availNames avail).length < cf) :
    ∀ fuel : Nat,
      (∀ (name : String) (s : RState),
        countNew avail s.visited < fuel → RInv avail s →
        (∀ x ∈ s.visited, x ∉ s.order → DepPath avail x name) →
        ∃ (s' : RState) (Δ : List String),
          visitOne avail cf fuel name s = some (.ok s') ∧
          s'.order = s.order ++ Δ ∧
          (∀ x, x ∈ s'.visited ↔ x ∈ s.visited ∨ x ∈ Δ) ∧
          (∀ x ∈ Δ, x ∉ s.visited) ∧
          name ∈ s'.order ∧
          (∀ x ∈ Δ, ReachStar avail name x) ∧
          RInv avail s') ∧
      (∀ (ns : List String) (s : RState),
        countNew avail s.visited < fuel → RInv avail s →
        (∀ x ∈ s.visited, x ∉ s.order → ∀ d ∈ ns, DepPath avail x d) →
        ∃ (s' : RState) (Δ : List String),
          visitList avail cf fuel ns s = some (.ok s') ∧
          s'.order = s.order ++ Δ ∧
          (∀ x, x ∈ s'.visited ↔ x ∈ s.visited ∨ x ∈ Δ) ∧
          (∀ x ∈ Δ, x ∉ s.visited) ∧
          (∀ d ∈ ns, d ∈ s'.order) ∧
          (∀ x ∈ Δ, ∃ d ∈ ns, ReachStar avail d x) ∧
          RInv avail s') := by
  intro fuel
  induction fuel with
  | zero =>
    constructor
    · intro name s hcount; omega
    · intro ns s hcount; omega
  | succ fuel ih =>
    have part1 : ∀ (name : String) (s : RState),
        countNew avail s.visited < fuel + 1 → RInv avail s →
        (∀ x ∈ s.visited, x ∉ s.order → DepPath avail x name) →
        ∃ (s' : RState) (Δ : List String),
          visitOne avail cf (fuel + 1) name s = some (.ok s') ∧
          s'.order = s.order ++ Δ ∧
          (∀ x, x ∈ s'.visited ↔ x ∈ s.visited ∨ x ∈ Δ) ∧
          (∀ x ∈ Δ, x ∉ s.visited) ∧
          name ∈ s'.order ∧
          (∀ x ∈ Δ, ReachStar avail name x) ∧
          RInv avail s' := by
      intro name s hcount hinv hreach
      rw [visitOne_succ]
      by_cases hmem : name ∈ s.visited
      · rw [if_pos hmem]
        have hnord : name ∈ s.order := by
          by_contra hno
          exact hA name (hreach name hmem hno)
        exact ⟨s, [], rfl, by simp, by simp, by simp, hnord, by simp, hinv⟩
      · rw [if_neg hmem, checkCirc_acyclic hA hcf name]
        have hinv₁ : RInv avail ⟨name :: s.visited, s.order⟩ :=
          ⟨fun a ha => List.mem_cons_of_mem _ (hinv.sub a ha), hinv.nodup, hinv.closed⟩
        have hreach₁ : ∀ x ∈ (name :: s.visited), x ∉ s.order →
            ∀ d ∈ getPluginDependencies avail name, DepPath avail x d := by
          intro x hx hxo d hd
          rcases List.mem_cons.mp hx with rfl | hx'
          · exact DepPath.single hd
          · exact (hreach x hx' hxo).snoc hd
        have hname_not_ord : name ∉ s.order := fun h => hmem (hinv.sub name h)
        by_cases hdeps : getPluginDependencies avail name = []
        · rw [hdeps, visitList_nil]
          refine ⟨⟨name :: s.visited, s.order ++ [name]⟩, [name], rfl, rfl, ?_, ?_, ?_, ?_, ?_⟩
          · intro x
            simp only [List.mem_cons, List.mem_singleton]
            tauto
          · intro x hx
            simp only [List.mem_singleton] at hx
            subst hx
            exact hmem
          · exact List.mem_append_right _ (by simp)
          · intro x hx
            simp only [List.mem_singleton] at hx
            subst hx
            exact Or.inl rfl
          · refine ⟨?_, ?_, ?_⟩
            · intro a ha
              rcases List.mem_append.mp ha with h | h
              · exact List.mem_cons_of_mem _ (hinv.sub a h)
              · simp only [List.mem_singleton] at h
                subst h
                exact List.mem_cons_self _ _
            · exact List.Nodup.append hinv.nodup (by simp)
                (by intro x hx hx'; simp only [List.mem_singleton] at hx'; subst hx';
                    exact hname_not_ord hx)
            · intro a ha b hb
              rcases List.mem_append.mp ha with h | h
              · have hc := hinv.closed a h b hb
                refine ⟨List.mem_append_left _ hc.1, ?_⟩
                rw [List.indexOf_append_of_mem hc.1, List.indexOf_append_of_mem h]
                exact hc.2
              · simp only [List.mem_singleton] at h
                subst h
                rw [hdeps] at hb
                simp at hb
        · have hnav : name ∈ availNames avail := mem_availNames_of_deps hdeps
          have hlt : countNew avail (name :: s.visited) < fuel := by
            have := @countNew_cons_lt avail s.visited name hnav hmem
            omega
          obtain ⟨s₂, Δ₂, hrun, hord₂, hvis₂, hnew₂, hall₂, hreach₂, hinv₂⟩ :=
            ih.2 (getPluginDependencies avail name) ⟨name :: s.visited, s.order⟩
              hlt hinv₁ hreach₁
          rw [hrun]
          have hname_not_ord₂ : name ∉ s₂.order := by
            rw [hord₂]
            intro hmem'
            rcases List.mem_append.mp hmem' with h | h
            · exact hname_not_ord h
            · exact hnew₂ name h (List.mem_cons_self _ _)
          refine ⟨⟨s₂.visited, s₂.order ++ [name]⟩, Δ₂ ++ [name], rfl, ?_, ?_, ?_, ?_, ?_, ?_⟩
          · show s₂.order ++ [name] = s.order ++ (Δ₂ ++ [name])
            rw [hord₂, List.append_assoc]
          · intro x
            show x ∈ s₂.visited ↔ x ∈ s.visited ∨ x ∈ Δ₂ ++ [name]
            rw [hvis₂ x]
            simp only [List.mem_cons, List.mem_append, List.mem_singleton]
            tauto
          · intro x hx
            rcases List.mem_append.mp hx with h | h
            · intro hv
              exact hnew₂ x h (List.mem_cons_of_mem _ hv)
            · simp only [List.mem_singleton] at h
              subst h
              exact hmem
          · exact List.mem_append_right _ (by simp)
          · intro x hx
            rcases List.mem_append.mp hx with h | h
            · obtain ⟨d, hd, hr⟩ := hreach₂ x h
              rcases hr with heq | hp
              · subst heq
                exact Or.inr (DepPath.single hd)
              · exact Or.inr (DepPath.cons hd hp)
            · simp only [List.mem_singleton] at h
              subst h
              exact Or.inl rfl
          · refine ⟨?_, ?_, ?_⟩
            · intro a ha
              rcases List.mem_append.mp ha with h | h
              · exact hinv₂.sub a h
              · simp only [List.mem_singleton] at h
                subst h
                exact (hvis₂ a).mpr (Or.inl (List.mem_cons_self _ _))
            · exact List.Nodup.append hinv₂.nodup (by simp)
                (by intro x hx hx'; simp only [List.mem_singleton] at hx'; subst hx';
                    exact hname_not_ord₂ hx)
            · intro a ha b hb
              rcases List.mem_append.mp ha with h | h
              · have hc := hinv₂.closed a h b hb
                refine ⟨List.mem_append_left _ hc.1, ?_⟩
                rw [List.indexOf_append_of_mem hc.1, List.indexOf_append_of_mem h]
                exact hc.2
              · simp only [List.mem_singleton] at h
                subst h
                have hb' := hall₂ b hb
                refine ⟨List.mem_append_left _ hb', ?_⟩
                rw [List.indexOf_append_of_mem hb',
                  List.indexOf_append_of_not_mem hname_not_ord₂]
                have hlen := List.indexOf_lt_length.mpr hb'
                simp only [List.indexOf_cons_self]
                omega
    refine ⟨part1, ?_⟩
    intro ns
    induction ns with
    | nil =>
      intro s hcount hinv hreach
      refine ⟨s, [], visitList_nil avail cf (fuel + 1) s, by simp, by simp, by simp,
        by simp, by simp, hinv⟩
    | cons d rest ihns =>
      intro s hcount hinv hreach
      obtain ⟨s₁, Δ₁, hone, hord₁, hvis₁, hnew₁, hd₁, hreach₁, hinv₁⟩ :=
        part1 d s hcount hinv (fun x hx hxo => hreach x hx hxo d (by simp))
      rw [visitList_cons, hone]
      have hgrow₁ : ∀ x ∈ s.visited, x ∈ s₁.visited := fun x hx => (hvis₁ x).mpr (Or.inl hx)
      have hcount₁ : countNew avail s₁.visited < fuel + 1 := by
        have := @countNew_mono avail s.visited s₁.visited hgrow₁
        omega
      have hreach' : ∀ x ∈ s₁.visited, x ∉ s₁.order → ∀ d' ∈ rest, DepPath avail x d' := by
        intro x hx hxo d' hd'
        rcases (hvis₁ x).mp hx with hx' | hx'
        · have hxo' : x ∉ s.order := fun h => hxo (by
            rw [hord₁]; exact List.mem_append_left _ h)
          exact hreach x hx' hxo' d' (List.mem_cons_of_mem d hd')
        · exact absurd (by rw [hord₁]; exact List.mem_append_right _ hx') hxo
      obtain ⟨s', Δ₂, hrest, hord₂, hvis₂, hnew₂, hall₂, hreach₂, hinv₂⟩ :=
        ihns s₁ hcount₁ hinv₁ hreach'
      refine ⟨s', Δ₁ ++ Δ₂, hrest, ?_, ?_, ?_, ?_, ?_, hinv₂⟩
      · rw [hord₂, hord₁, List.append_assoc]
      · intro x
        rw [hvis₂ x, hvis₁ x]
        simp only [List.mem_append]
        tauto
      · intro x hx hv
        rcases List.mem_append.mp hx with h | h
        · exact hnew₁ x h hv
        · exact hnew₂ x h (hgrow₁ x hv)
      · intro d' hd'
        rcases List.mem_cons.mp hd' with rfl | hd''
        · rw [hord₂]
          exact List.mem_append_left _ hd₁
        · exact hall₂ d' hd''
      · intro x hx
        rcases List.mem_append.mp hx with h | h
        · exact ⟨d, by simp, hreach₁ x h⟩
        · obtain ⟨d', hd', hr⟩ := hreach₂ x h
          exact ⟨d', List.mem_cons_of_mem d hd', hr⟩

theorem visitList_append (avail : DepGraph) (cf fuel : Nat) (l₁ l₂ : List String)
    (s : RState) :
    visitList avail cf fuel (l₁ ++ l₂) s =
      match visitList avail cf fuel l₁ s with
      | none => none
      | some (.error e) => some (.error e)
      | some (.ok s') => visitList avail cf fuel l₂ s' := by
  show List.foldl
      (fun acc d =>
        match acc with
        | some (Except.ok s') => visitOne avail cf fuel d s'
        | other => other) (some (Except.ok s)) (l₁ ++ l₂) =
    match visitList avail cf fuel l₁ s with
    | none => none
    | some (.error e) => some (.error e)
    | some (.ok s') => visitList avail cf fuel l₂ s'
  rw [List.foldl_append]
  show List.foldl _ (visitList avail cf fuel l₁ s) l₂ = _
  match h : visitList avail cf fuel l₁ s with
  | none =>
    simp only
    exact visitList_stuck avail cf fuel l₂ none (by simp)
  | some (.error e) =>
    simp only
    exact visitList_stuck avail cf fuel l₂ (some (.error e)) (by simp)
  | some (.ok s') => rfl

theorem order_topological {avail : DepGraph} {order : List String}
    (hclosed : ∀ a ∈ order, ∀ b ∈ getPluginDependencies avail a,
      b ∈ order ∧ order.indexOf b < order.indexOf a) :
    ∀ a b, DepPath avail a b → a ∈ order →
      b ∈ order ∧ order.indexOf b < order.indexOf a := by
  intro a b hpath
  induction hpath with
  | single h => exact fun ha => hclosed _ ha _ h
  | cons h p ih =>
    intro ha
    have h1 := hclosed _ ha _ h
    have h2 := ih h1.1
    exact ⟨h2.1, Nat.lt_trans h2.2 h1.2⟩

theorem acyclic_of_no_deps {avail : DepGraph}
    (h : ∀ n, getPluginDependencies avail n = []) : Acyclic avail := by
  intro n hp
  cases hp with
  | single he => rw [h] at he; simp at he
  | cons he _ => rw [h] at he; simp at he

/-! ## Template engine

`TemplateEngine.VARIABLE_PATTERN` is the regular expression
`\x7b\x7b([A-Z_][A-Z0-9_]*)\x7d\x7d` applied globally.  Because the name class
and the closing brace are disjoint, a match at a position is exactly: two
opening braces, a maximal run of name characters starting with `[A-Z_]`, and
two closing braces; `String.prototype.replace` scans left to right and
advances one character past positions that do not match. -/

/-- Character class `[A-Z]`. -/
def isUpperAZ (c : Char) : Bool := 'A' ≤ c && c ≤ 'Z'

/-- Character class `[0-9]`. -/
def isDigit09 (c : Char) : Bool := '0' ≤ c && c ≤ '9'

/-- Character class `[A-Z_]`, the first character of a variable name. -/
def nameStart (c : Char) : Bool := isUpperAZ c || c = '_'

/-- Character class `[A-Z0-9_]`, the remaining characters of a variable name. -/
def nameChar (c : Char) : Bool := isUpperAZ c || isDigit09 c || c = '_'

/-- Attempt to read `NAME\x7d\x7d` at the head of the input (the part of a
placeholder after its two opening braces).  On success returns the name and
the input after the two closing braces.  The name run is maximal, and
backtracking cannot help because the name class excludes the closing brace. -/
def parseVar : List Char → Option (List Char × List Char)
  | [] => none
  | c :: rest =>
    if nameStart c then
      match rest.dropWhile nameChar with
      | d₁ :: d₂ :: r => if d₁ = '}' ∧ d₂ = '}' then some (c :: rest.takeWhile nameChar, r) else none
      | _ => none
    else none

/-- The string the replace callback produces for a match with name `n`: the
stringified context value when the name is defined, the matched text itself
(`context[varName] === undefined` keeps the placeholder) otherwise. -/
def phRender (ctx : List (String × String)) (n : List Char) : List Char :=
  match lookupKey ctx (String.mk n) with
  | some v => v.data
  | none => '{' :: '{' :: (n ++ ['}', '}'])

/-- Attempt a `VARIABLE_PATTERN` match at the head of the input.  On success,
returns the replacement text together with the number of matched characters
after the first one (the scanner resumes after the whole match). -/
def phOut (ctx : List (String × String)) : List Char → Option (List Char × Nat)
  | c₁ :: c₂ :: rest =>
    if c₁ = '{' ∧ c₂ = '{' then
      match parseVar rest with
      | some (n, _) => some (phRender ctx n, n.length + 3)
      | none => none
    else none
  | _ => none

/-- Embedding of `TemplateEngine.replaceVariables` on character lists: the
left-to-right global-regex scan of `String.prototype.replace`.  The `skip`
counter carries the still-to-be-consumed characters of a match, making the
recursion structural. -/
def repAux (ctx : List (String × String)) : List Char → Nat → List Char
  | [], _ => []
  | _ :: rest, skip + 1 => repAux ctx rest skip
  | c :: rest, 0 =>
    match phOut ctx (c :: rest) with
    | some (out, skipCount) => out ++ repAux ctx rest skipCount
    | none => c :: repAux ctx rest 0

/-- The scan started at position 0. -/
def repChars (ctx : List (String × String)) (l : List Char) : List Char :=
  repAux ctx l 0

/-- Attempt a `VARIABLE_PATTERN` match at the head of the input, keeping only
the name (for `matchAll`). -/
def phName : List Char → Option (List Char × Nat)
  | c₁ :: c₂ :: rest =>
    if c₁ = '{' ∧ c₂ = '{' then
      match parseVar rest with
      | some (n, _) => some (n, n.length + 3)
      | none => none
    else none
  | _ => none

/-- Embedding of `TemplateEngine.extractVariables` on character lists: the
names of every placeholder match, in scan order, with duplicates. -/
def extAux : List Char → Nat → List (List Char)
  | [], _ => []
  | _ :: rest, skip + 1 => extAux rest skip
  | c :: rest, 0 =>
    match phName (c :: rest) with
    | some (n, skipCount) => n :: extAux rest skipCount
    | none => extAux rest 0

/-- The scan started at position 0. -/
def extChars (l : List Char) : List (List Char) :=
  extAux l 0

/-- Embedding of `TemplateEngine.replaceVariables` (template-engine.ts 18-27). -/
def replaceVariables (text : String) (ctx : List (String × String)) : String :=
  String.mk (repChars ctx text.data)

/-- Embedding of `TemplateEngine.extractVariables` (template-engine.ts 59-68):
match names collected through a `Set`, hence first-occurrence deduplication. -/
def extractVariables (text : String) : List String :=
  dedupF ((extChars text.data).map String.mk)

/-- Decomposition of a successful head match: the input is exactly the name
followed by the two closing braces and the remainder, the name is nonempty,
starts with `[A-Z_]` and continues with `[A-Z0-9_]`, and it cannot be extended
(the remainder after the name starts with a closing brace). -/
theorem parseVar_decomp {l n r : List Char} (h : parseVar l = some (n, r)) :
    l = n ++ '}' :: '}' :: r ∧
    (∃ c tail, n = c :: tail ∧ nameStart c = true ∧ tail.all nameChar = true) := by
  match l with
  | [] => simp [parseVar] at h
  | c :: rest =>
    simp only [parseVar] at h
    split at h
    · next hstart =>
      split at h
      · next d₁ d₂ r' heq =>
        split at h
        · next hbr =>
          obtain ⟨hb₁, hb₂⟩ := hbr
          subst hb₁; subst hb₂
          injection h with h'
          injection h' with h₁ h₂
          subst h₁; subst h₂
          constructor
          · have htd : rest.takeWhile nameChar ++ rest.dropWhile nameChar = rest :=
              List.takeWhile_append_dropWhile nameChar rest
            conv_lhs => rw [← htd]
            rw [heq]
            simp
          · exact ⟨c, rest.takeWhile nameChar, rfl, hstart, by
              simpa using List.all_takeWhile (p := nameChar) (l := rest)⟩
        · exact absurd h (by simp)
      · exact absurd h (by simp)
    · exact absurd h (by simp)

/-- Skipping exactly the length of a prefix resumes the scan at the suffix. -/
theorem repAux_skip (ctx : List (String × String)) :
    ∀ (pre rest : List Char), repAux ctx (pre ++ rest) pre.length = repAux ctx rest 0 := by
  intro pre
  induction pre with
  | nil => intro rest; rfl
  | cons c pre ih =>
    intro rest
    simp only [List.cons_append, List.length_cons, repAux]
    exact ih rest

/-- Skipping exactly the length of a prefix resumes the extraction scan at the
suffix. -/
theorem extAux_skip :
    ∀ (pre rest : List Char), extAux (pre ++ rest) pre.length = extAux rest 0 := by
  intro pre
  induction pre with
  | nil => intro rest; rfl
  | cons c pre ih =>
    intro rest
    simp only [List.cons_append, List.length_cons, extAux]
    exact ih rest

/-- Scan equation: a successful match at the head emits its rendering and
resumes after the match. -/
theorem repChars_match {ctx : List (String × String)} {rest n r : List Char}
    (h : parseVar rest = some (n, r)) :
    repChars ctx ('{' :: '{' :: rest) = phRender ctx n ++ repChars ctx r := by
  have hd := (parseVar_decomp h).1
  unfold repChars
  rw [show ('{' :: '{' :: rest) = '{' :: '{' :: rest from rfl]
  rw [repAux]
  simp only [phOut, h, and_self, if_true]
  congr 1
  have : ('{' :: rest) = ('{' :: n ++ ['}', '}']) ++ r := by
    rw [hd]; simp
  rw [this]
  have hlen : ('{' :: n ++ ['}', '}']).length = n.length + 3 := by simp
  rw [← hlen]
  exact repAux_skip ctx _ r

/-- Scan equation: a failed match attempt at a double brace emits the first
brace and retries from the second. -/
theorem repChars_fail {ctx : List (String × String)} {rest : List Char}
    (h : parseVar rest = none) :
    repChars ctx ('{' :: '{' :: rest) = '{' :: repChars ctx ('{' :: rest) := by
  unfold repChars
  rw [repAux]
  simp only [phOut, h, and_self, if_true]

/-- Scan equation: a head that cannot open a placeholder is emitted verbatim.
This covers every input not of the form `\x7b\x7b…`. -/
theorem repChars_skip {ctx : List (String × String)} {c : Char} {rest : List Char}
    (h : phOut ctx (c :: rest) = none) :
    repChars ctx (c :: rest) = c :: repChars ctx rest := by
  unfold repChars
  rw [repAux]
  simp only [h]

/-- Extraction equation: a successful match at the head contributes its name
and resumes after the match. -/
theorem extChars_match {rest n r : List Char} (h : parseVar rest = some (n, r)) :
    extChars ('{' :: '{' :: rest) = n :: extChars r := by
  have hd := (parseVar_decomp h).1
  unfold extChars
  rw [extAux]
  simp only [phName, h, and_self, if_true]
  congr 1
  have : ('{' :: rest) = ('{' :: n ++ ['}', '}']) ++ r := by
    rw [hd]; simp
  rw [this]
  have hlen : ('{' :: n ++ ['}', '}']).length = n.length + 3 := by simp
  rw [← hlen]
  exact extAux_skip _ r

/-- Extraction equation: a failed match attempt at a double brace retries from
the second brace. -/
theorem extChars_fail {rest : List Char} (h : parseVar rest = none) :
    extChars ('{' :: '{' :: rest) = extChars ('{' :: rest) := by
  unfold extChars
  rw [extAux]
  simp only [phName, h, and_self, if_true]

/-- Extraction equation: a head that cannot open a placeholder is skipped. -/
theorem extChars_skip {c : Char} {rest : List Char} (h : phName (c :: rest) = none) :
    extChars (c :: rest) = extChars rest := by
  unfold extChars
  rw [extAux]
  simp only [h]

/-! ## Installer

`Installer.copyFile` (detector.ts 1114-1164) reads every file with
`fs.readFile(src, 'utf-8')` and writes with `fs.writeFile(dest, content,
'utf-8')`, so file content passes through a UTF-8 decode (with U+FFFD
replacement of invalid sequences, per the WHATWG decoder Node's Buffer
implements) and a UTF-8 encode even when no substitution is applied.  The
embedding therefore works on byte lists, with the decoder and encoder made
explicit. -/

/-- The Unicode replacement character U+FFFD substituted for bytes that are
not valid UTF-8. -/
def replChar : Char := '\uFFFD'

/-- First permitted second byte of a three-byte sequence led by `b₁` (`0xE0`
forbids overlongs). -/
def cbLo3 (b₁ : Nat) : Nat := if b₁ = 0xE0 then 0xA0 else 0x80

/-- One past the last permitted second byte of a three-byte sequence led by
`b₁` (`0xED` forbids surrogates). -/
def cbHi3 (b₁ : Nat) : Nat := if b₁ = 0xED then 0xA0 else 0xC0

/-- First permitted second byte of a four-byte sequence led by `b₁` (`0xF0`
forbids overlongs). -/
def cbLo4 (b₁ : Nat) : Nat := if b₁ = 0xF0 then 0x90 else 0x80

/-- One past the last permitted second byte of a four-byte sequence led by
`b₁` (`0xF4` forbids values above U+10FFFF). -/
def cbHi4 (b₁ : Nat) : Nat := if b₁ = 0xF4 then 0x90 else 0xC0

/-- Decode one scalar value (or one maximal invalid subpart) from the lead
byte `b₁` and the remaining input, returning the character and the number of
extra bytes consumed after `b₁`. -/
def utf8DecodeOne (b₁ : Nat) (rest : List Nat) : Char × Nat :=
  if b₁ < 0x80 then (Char.ofNat b₁, 0)
  else if b₁ < 0xC2 then (replChar, 0)
  else if b₁ < 0xE0 then
    match rest with
    | b₂ :: _ =>
      if 0x80 ≤ b₂ ∧ b₂ < 0xC0 then
        (Char.ofNat ((b₁ - 0xC0) * 64 + (b₂ - 0x80)), 1)
      else (replChar, 0)
    | [] => (replChar, 0)
  else if b₁ < 0xF0 then
    match rest with
    | b₂ :: b₃ :: _ =>
      if cbLo3 b₁ ≤ b₂ ∧ b₂ < cbHi3 b₁ then
        if 0x80 ≤ b₃ ∧ b₃ < 0xC0 then
          (Char.ofNat ((b₁ - 0xE0) * 4096 + (b₂ - 0x80) * 64 + (b₃ - 0x80)), 2)
        else (replChar, 1)
      else (replChar, 0)
    | [b₂] => if cbLo3 b₁ ≤ b₂ ∧ b₂ < cbHi3 b₁ then (replChar, 1) else (replChar, 0)
    | [] => (replChar, 0)
  else if b₁ < 0xF5 then
    match rest with
    | b₂ :: b₃ :: b₄ :: _ =>
      if cbLo4 b₁ ≤ b₂ ∧ b₂ < cbHi4 b₁ then
        if 0x80 ≤ b₃ ∧ b₃ < 0xC0 then
          if 0x80 ≤ b₄ ∧ b₄ < 0xC0 then
            (Char.ofNat ((b₁ - 0xF0) * 262144 + (b₂ - 0x80) * 4096
              + (b₃ - 0x80) * 64 + (b₄ - 0x80)), 3)
          else (replChar, 2)
        else (replChar, 1)
      else (replChar, 0)
    | [b₂, b₃] =>
      if cbLo4 b₁ ≤ b₂ ∧ b₂ < cbHi4 b₁ then
        if 0x80 ≤ b₃ ∧ b₃ < 0xC0 then (replChar, 2) else (replChar, 1)
      else (replChar, 0)
    | [b₂] => if cbLo4 b₁ ≤ b₂ ∧ b₂ < cbHi4 b₁ then (replChar, 1) else (replChar, 0)
    | [] => (replChar, 0)
  else (replChar, 0)

/-- UTF-8 decoding with replacement, as a scan with a skip counter for the
already-consumed continuation bytes. -/
def utf8DecodeAux : List Nat → Nat → List Char
  | [], _ => []
  | _ :: rest, skip + 1 => utf8DecodeAux rest skip
  | b :: rest, 0 =>
    (utf8DecodeOne b rest).1 :: utf8DecodeAux rest (utf8DecodeOne b rest).2

/-- WHATWG UTF-8 decode with replacement (what `readFile(src, 'utf-8')`
produces). -/
def utf8Decode (l : List Nat) : List Char := utf8DecodeAux l 0

/-- UTF-8 encoding of one unicode scalar value. -/
def utf8EncodeChar (n : Nat) : List Nat :=
  if n < 0x80 then [n]
  else if n < 0x800 then [0xC0 + n / 64, 0x80 + n % 64]
  else if n < 0x10000 then
    [0xE0 + n / 4096, 0x80 + n / 64 % 64, 0x80 + n % 64]
  else
    [0xF0 + n / 262144, 0x80 + n / 4096 % 64, 0x80 + n / 64 % 64, 0x80 + n % 64]

/-- UTF-8 encoding of a character sequence (what `writeFile(dest, content,
'utf-8')` stores). -/
def utf8Encode (cs : List Char) : List Nat :=
  cs.flatMap (fun c => utf8EncodeChar c.toNat)

/-- The fixed allow-list of text-format extensions in `Installer.copyFile`
(detector.ts 1141-1151). -/
def textExtensions : List String :=
  [".md", ".ts", ".js", ".json", ".sh", ".bash", ".txt", ".yml", ".yaml"]

/-- The options `copyFile` consults (`verbose` only affects logging and is
omitted). -/
structure InstallOptions where
  force : Bool
  dryRun : Bool
deriving DecidableEq, Repr

/-- Embedding of `Installer.copyFile` (detector.ts 1114-1164) as a transformer
of the destination file state (`none` = the file does not exist), at the byte
level.  Every write goes through the `readFile(src, 'utf-8')` decode and the
`writeFile(…, 'utf-8')` encode; text-format extensions additionally get
template substitution on the decoded text.  `ext` is `path.extname(src)`. -/
def copyFile (srcBytes : List Nat) (ext : String) (ctx : List (String × String))
    (opts : InstallOptions) (dest : Option (List Nat)) : Option (List Nat) :=
  if dest.isSome && !opts.force then dest
  else if opts.dryRun then dest
  else
    some (utf8Encode
      (if ext ∈ textExtensions then
        (replaceVariables (String.mk (utf8Decode srcBytes)) ctx).data
      else utf8Decode srcBytes))

/-! ## Manifest validator

`PluginValidator.validateManifest` (plugin-validator.ts 32-77) first runs the
Ajv schema check and, if it failed, returns only the formatted schema errors.
Only when the schema check passed does it run the semantic checks: the two
semver-range validations (delegated to `Validators.isValidVersionRange`) and
the author-format check.  Ajv and the semver library are external; their
verdicts enter the model as boolean parameters, and Ajv's guarantee that
`errors` is set whenever validation fails is reflected by passing the
formatted error list alongside `schemaOk`. -/

structure ValidationResult where
  valid : Bool
  errors : Option (List String)
deriving DecidableEq, Repr

/-- Embedding of `PluginValidator.validateManifest`. -/
def validateManifest (schemaOk : Bool) (schemaErrors : List String)
    (claudeCodeOk nodeOk : Bool) (claudeCodeRange nodeRange : String)
    (author : String) : ValidationResult :=
  if !schemaOk then ⟨false, some schemaErrors⟩
  else
    let additionalErrors :=
      (if !claudeCodeOk then ["Invalid claudeCode version range: " ++ claudeCodeRange]
       else []) ++
      (if !nodeOk then ["Invalid node version range: " ++ nodeRange] else []) ++
      (if !(author.data.contains '<') && !(author.data.contains '@') then
        ["Author should include email (e.g., \"Name <email@example.com>\")"]
       else [])
    if additionalErrors.isEmpty then ⟨true, none⟩ else ⟨false, some additionalErrors⟩

/-! ## Skill-rule merging -/

inductive SkillType
  | domain
  | guardrail
deriving DecidableEq, Repr

inductive Enforcement
  | suggest
  | warn
  | block
deriving DecidableEq, Repr

inductive SkillPriority
  | critical
  | high
  | medium
  | low
deriving DecidableEq, Repr

structure PromptTriggers where
  keywords : Option (List String)
  intentPatterns : Option (List String)
deriving DecidableEq, Repr

structure FileTriggers where
  pathPatterns : Option (List String)
  pathExclusions : Option (List String)
  contentPatterns : Option (List String)
deriving DecidableEq, Repr

/-- The `SkillRule` shape of `src/cli/src/types`: enum-valued scalar fields and
optional trigger groups.  A field is `none` when the JSON key is absent; the
enum values are the only ones the schema admits and none of them is a falsy
JavaScript value, so `a || b` on these fields is `Option.or`. -/
structure SkillRule where
  type : Option SkillType
  enforcement : Option Enforcement
  priority : Option SkillPriority
  promptTriggers : Option PromptTriggers
  fileTriggers : Option FileTriggers
deriving DecidableEq, Repr

/-- Embedding of `Merger.mergeArrays` (merger.ts 96-106): `undefined` when both
inputs are `undefined`, otherwise the concatenation deduplicated through a
`Set`. -/
def mergeArrays (arr1 arr2 : Option (List String)) : Option (List String) :=
  match arr1, arr2 with
  | none, none => none
  | a, b => some (dedupF (a.getD [] ++ b.getD []))

/-- Embedding of `Merger.mergeSkillRules` (merger.ts 51-91). -/
def mergeSkillRules (existing incoming : SkillRule) : SkillRule :=
  ⟨incoming.type.or existing.type,
   incoming.enforcement.or existing.enforcement,
   incoming.priority.or existing.priority,
   if existing.promptTriggers.isSome || incoming.promptTriggers.isSome then
     some ⟨mergeArrays (existing.promptTriggers.bind (·.keywords))
             (incoming.promptTriggers.bind (·.keywords)),
           mergeArrays (existing.promptTriggers.bind (·.intentPatterns))
             (incoming.promptTriggers.bind (·.intentPatterns))⟩
   else none,
   if existing.fileTriggers.isSome || incoming.fileTriggers.isSome then
     some ⟨mergeArrays (existing.fileTriggers.bind (·.pathPatterns))
             (incoming.fileTriggers.bind (·.pathPatterns)),
           mergeArrays (existing.fileTriggers.bind (·.pathExclusions))
             (incoming.fileTriggers.bind (·.pathExclusions)),
           mergeArrays (existing.fileTriggers.bind (·.contentPatterns))
             (incoming.fileTriggers.bind (·.contentPatterns))⟩
   else none⟩

/-- A `SkillRulesFragment`'s `skills` object, as an association list in key
insertion order. -/
abbrev Fragment := List (String × SkillRule)

/-- JavaScript object assignment `o[k] = v`: an existing key keeps its
position, a new key is appended. -/
def setKeyG : List (String × β) → String → β → List (String × β)
  | [], k, v => [(k, v)]
  | (k', v') :: rest, k, v =>
    if k' = k then (k, v) :: rest else (k', v') :: setKeyG rest k v

/-- Embedding of the per-fragment loop of `Merger.mergeSkillRulesFragments`
(merger.ts 20-42), without a template context (the `context` parameter is
optional and the merge path under study does not involve substitution). -/
def mergeFragmentInto (merged frag : Fragment) : Fragment :=
  frag.foldl (fun acc kv =>
    match lookupKey acc kv.1 with
    | some ex => setKeyG acc kv.1 (mergeSkillRules ex kv.2)
    | none => acc ++ [kv]) merged

/-- Embedding of `Merger.mergeSkillRulesFragments` (merger.ts 14-45). -/
def mergeSkillRulesFragments (fragments : List Fragment) : Fragment :=
  fragments.foldl mergeFragmentInto []

/-! ## Generic deep merger

`Merger.deepMerge` (merger.ts 127-151) works on parsed JSON values.  A JSON
tree is a tagged variant; a JS object is an association list in key insertion
order.  `Array.from(new Set(...))` deduplicates by value for primitives and
keeps first occurrences; elements of the settings arrays the merger is applied
to are compared by value here. -/

inductive Json where
  | null : Json
  | bool : Bool → Json
  | num : Int → Json
  | str : String → Json
  | arr : List Json → Json
  | obj : List (String × Json) → Json
deriving Repr

mutual

/-- Structural equality of JSON values. -/
def jbeq : Json → Json → Bool
  | .null, .null => true
  | .bool a, .bool b => a == b
  | .num a, .num b => a == b
  | .str a, .str b => a == b
  | .arr a, .arr b => jbeqA a b
  | .obj a, .obj b => jbeqO a b
  | _, _ => false

/-- Structural equality of JSON arrays. -/
def jbeqA : List Json → List Json → Bool
  | [], [] => true
  | a :: as, b :: bs => jbeq a b && jbeqA as bs
  | _, _ => false

/-- Structural equality of JSON objects. -/
def jbeqO : List (String × Json) → List (String × Json) → Bool
  | [], [] => true
  | (k, v) :: as, (k', v') :: bs => k == k' && jbeq v v' && jbeqO as bs
  | _, _ => false

end

theorem Json.one_le_sizeOf : ∀ a : Json, 1 ≤ sizeOf a := by
  intro a
  cases a <;> simp

theorem jbeq_iff_size :
    ∀ (n : Nat) (a b : Json), sizeOf a ≤ n → (jbeq a b = true ↔ a = b) := by
  intro n
  induction n with
  | zero =>
    intro a b h
    have := Json.one_le_sizeOf a
    omega
  | succ n ih =>
    have ihA : ∀ (as bs : List Json), sizeOf as ≤ n + 1 → (jbeqA as bs = true ↔ as = bs) := by
      intro as
      induction as with
      | nil => intro bs _; cases bs <;> simp [jbeqA]
      | cons a as iha =>
        intro bs h
        cases bs with
        | nil => simp [jbeqA]
        | cons b bs =>
          have ha : sizeOf a ≤ n := by
            have h1 := Json.one_le_sizeOf a
            simp only [List.cons.sizeOf_spec] at h
            have h2 : 1 ≤ sizeOf as := by cases as <;> simp_arith
            omega
          have has : sizeOf as ≤ n + 1 := by
            simp only [List.cons.sizeOf_spec] at h
            have := Json.one_le_sizeOf a
            omega
          rw [jbeqA, Bool.and_eq_true, ih a b ha, iha bs has]
          simp
    have ihO : ∀ (as bs : List (String × Json)), sizeOf as ≤ n + 1 →
        (jbeqO as bs = true ↔ as = bs) := by
      intro as
      induction as with
      | nil => intro bs _; cases bs <;> simp [jbeqO]
      | cons kv as iha =>
        intro bs h
        obtain ⟨k, v⟩ := kv
        cases bs with
        | nil => simp [jbeqO]
        | cons kv' bs =>
          obtain ⟨k', v'⟩ := kv'
          have hv : sizeOf v ≤ n := by
            simp only [List.cons.sizeOf_spec, Prod.mk.sizeOf_spec] at h
            have h2 : 1 ≤ sizeOf as := by cases as <;> simp_arith
            omega
          have has : sizeOf as ≤ n + 1 := by
            simp only [List.cons.sizeOf_spec, Prod.mk.sizeOf_spec] at h
            omega
          rw [jbeqO, Bool.and_eq_true, Bool.and_eq_true, ih v v' hv, iha bs has]
          simp only [beq_iff_eq, List.cons.injEq, Prod.mk.injEq]
          try tauto
    intro a b h
    cases a <;> cases b
    case arr.arr as bs =>
      have hsz : sizeOf as ≤ n + 1 := by
        simp only [Json.arr.sizeOf_spec] at h
        omega
      simp only [jbeq]
      rw [ihA as bs hsz]
      simp
    case obj.obj as bs =>
      have hsz : sizeOf as ≤ n + 1 := by
        simp only [Json.obj.sizeOf_spec] at h
        omega
      simp only [jbeq]
      rw [ihO as bs hsz]
      simp
    all_goals simp [jbeq]

theorem jbeq_iff (a b : Json) : jbeq a b = true ↔ a = b :=
  jbeq_iff_size (sizeOf a) a b (Nat.le_refl _)

instance : DecidableEq Json := fun a b => decidable_of_iff _ (jbeq_iff a b)

/-- JavaScript truthiness of a JSON value (`0`, `""`, `false`, `null` are
falsy; every array and object is truthy). -/
def Json.truthy : Json → Bool
  | .null => false
  | .bool b => b
  | .num n => n ≠ 0
  | .str s => s ≠ ""
  | .arr _ => true
  | .obj _ => true

/-- The JS expression `v || d` applied to a possibly-undefined value, as used
in `merged[key] || \x7b\x7d` and `merged[key] || []`. -/
def jsOr (v : Option Json) (d : Json) : Json :=
  match v with
  | some x => if x.truthy then x else d
  | none => d

/-- Projection used to state trigger-union properties: the keywords a rule
contributes (absent trigger groups and absent arrays contribute nothing). -/
def ruleKeywords (r : SkillRule) : List String :=
  (r.promptTriggers.bind (·.keywords)).getD []

/-- The intent patterns a rule contributes. -/
def ruleIntents (r : SkillRule) : List String :=
  (r.promptTriggers.bind (·.intentPatterns)).getD []

/-- The path patterns a rule contributes. -/
def rulePathPats (r : SkillRule) : List String :=
  (r.fileTriggers.bind (·.pathPatterns)).getD []

/-- The path exclusions a rule contributes. -/
def rulePathExcl (r : SkillRule) : List String :=
  (r.fileTriggers.bind (·.pathExclusions)).getD []

/-- The content patterns a rule contributes. -/
def ruleContentPats (r : SkillRule) : List String :=
  (r.fileTriggers.bind (·.contentPatterns)).getD []

theorem mem_mergeArrays_getD (a b : Option (List String)) (x : String) :
    (x ∈ (mergeArrays a b).getD [] ↔ x ∈ a.getD [] ∨ x ∈ b.getD []) := by
  match a, b with
  | none, none => simp [mergeArrays]
  | none, some l => simp [mergeArrays, mem_dedupF]
  | some l, none => simp [mergeArrays, mem_dedupF]
  | some l, some l' => simp [mergeArrays, mem_dedupF]

theorem nodup_mergeArrays_getD (a b : Option (List String)) :
    ((mergeArrays a b).getD []).Nodup := by
  match a, b with
  | none, none => simp [mergeArrays]
  | none, some l => simpa [mergeArrays] using nodup_dedupF _
  | some l, none => simpa [mergeArrays] using nodup_dedupF _
  | some l, some l' => simpa [mergeArrays] using nodup_dedupF _

mutual

/-- Embedding of `Merger.deepMerge` (merger.ts 127-151). -/
def deepMerge : Json → Json → Json
  | .arr t, .arr s => .arr (dedupF (t ++ s))
  | .obj t, .obj s => .obj (mergeInto t s)
  | _, s => s

/-- The `for (const key of Object.keys(source))` loop of `deepMerge`, with the
accumulated `merged` object threaded through. -/
def mergeInto : List (String × Json) → List (String × Json) → List (String × Json)
  | acc, [] => acc
  | acc, (k, sv) :: rest => mergeInto (setKeyG acc k (mergeVal (lookupKey acc k) sv)) rest

/-- The per-key dispatch of `deepMerge` on the kind of `source[key]`. -/
def mergeVal : Option Json → Json → Json
  | t, .obj s => deepMerge (jsOr t (.obj [])) (.obj s)
  | t, .arr s => deepMerge (jsOr t (.arr [])) (.arr s)
  | _, sv => sv

end

/-! ## Supporting lemmas -/

theorem lookupKey_eq_none {β : Type} {l : List (String × β)} {key : String}
    (h : key ∉ l.map Prod.fst) : lookupKey l key = none := by
  induction l with
  | nil => rfl
  | cons kv rest ih =>
    obtain ⟨k, v⟩ := kv
    simp only [List.map_cons, List.mem_cons] at h
    push_neg at h
    rw [lookupKey, if_neg (by exact fun hk => h.1 hk.symm)]
    exact ih h.2

theorem phName_shape {l : List Char} {n : List Char} {k : Nat}
    (h : phName l = some (n, k)) :
    ∃ c tail, n = c :: tail ∧ nameStart c = true ∧ tail.all nameChar = true := by
  match l with
  | [] => simp [phName] at h
  | [c] => simp [phName] at h
  | c₁ :: c₂ :: rest =>
    simp only [phName] at h
    split at h
    · cases hp : parseVar rest with
      | none => rw [hp] at h; simp at h
      | some p =>
        obtain ⟨n', r⟩ := p
        rw [hp] at h
        simp only [Option.some.injEq, Prod.mk.injEq] at h
        obtain ⟨hn, hk⟩ := h
        subst hn
        exact (parseVar_decomp hp).2
    · simp at h

theorem extAux_shape :
    ∀ (l : List Char) (skip : Nat) (n : List Char), n ∈ extAux l skip →
      ∃ c tail, n = c :: tail ∧ nameStart c = true ∧ tail.all nameChar = true := by
  intro l
  induction l with
  | nil => intro skip n h; simp [extAux] at h
  | cons c rest ih =>
    intro skip n h
    match skip with
    | s + 1 =>
      rw [extAux] at h
      exact ih s n h
    | 0 =>
      rw [extAux] at h
      cases hp : phName (c :: rest) with
      | none =>
        rw [hp] at h
        exact ih 0 n h
      | some p =>
        obtain ⟨n₀, k⟩ := p
        rw [hp] at h
        simp only [List.mem_cons] at h
        rcases h with h | h
        · subst h; exact phName_shape hp
        · exact ih k n h

/-- A string matching `[A-Z_][A-Z0-9_]*`, the names `VARIABLE_PATTERN` can
capture. -/
def validVarName (s : String) : Bool :=
  match s.data with
  | [] => false
  | c :: tail => nameStart c && tail.all nameChar

/-- Well-formed JSON tree: object keys are unique (a JavaScript object cannot
hold a key twice) and arrays hold no duplicate elements. -/
inductive WFDup : Json → Prop
  | null : WFDup .null
  | bool (b : Bool) : WFDup (.bool b)
  | num (n : Int) : WFDup (.num n)
  | str (s : String) : WFDup (.str s)
  | arr {l : List Json} : l.Nodup → (∀ x ∈ l, WFDup x) → WFDup (.arr l)
  | obj {kvs : List (String × Json)} : (kvs.map Prod.fst).Nodup →
      (∀ kv ∈ kvs, WFDup kv.2) → WFDup (.obj kvs)

theorem dedupW_append_self [DecidableEq α] : ∀ {l : List α}, l.Nodup → dedupW (l ++ l) = l := by
  intro l
  induction l with
  | nil => intro _; simp [dedupW]
  | cons a as ih =>
    intro hn
    rw [List.nodup_cons] at hn
    have hfil : ∀ {m : List α}, a ∉ m → m.filter (fun x => x ≠ a) = m := by
      intro m hm
      apply List.filter_eq_self.mpr
      intro x hx
      have hxa : x ≠ a := fun h => hm (h ▸ hx)
      simp [hxa]
    rw [List.cons_append, dedupW]
    congr 1
    have h1 : (as ++ a :: as).filter (fun x => x ≠ a) = as ++ as := by
      rw [List.filter_append, hfil hn.1, List.filter_cons, if_neg (by simp)]
      congr 1
      apply List.filter_eq_self.mpr
      intro x hx
      have hxa : ¬x = a := fun h => hn.1 (h ▸ hx)
      simp [hxa]
    rw [h1]
    exact ih hn.2

theorem dedupF_append_self [DecidableEq α] {l : List α} (h : l.Nodup) :
    dedupF (l ++ l) = l := by
  rw [dedupF_eq_dedupW]
  exact dedupW_append_self h

theorem lookupKey_of_mem_nodup {β : Type} :
    ∀ {l : List (String × β)}, (l.map Prod.fst).Nodup →
      ∀ {k : String} {v : β}, (k, v) ∈ l → lookupKey l k = some v := by
  intro l
  induction l with
  | nil => intro _ k v h; simp at h
  | cons kv rest ih =>
    intro hn k v h
    obtain ⟨k', v'⟩ := kv
    simp only [List.map_cons, List.nodup_cons] at hn
    rw [List.mem_cons] at h
    rcases h with h | h
    · injection h with h₁ h₂
      subst h₁; subst h₂
      rw [lookupKey, if_pos rfl]
    · have hkne : k' ≠ k := by
        rintro rfl
        exact hn.1 (List.mem_map.mpr ⟨(k', v), h, rfl⟩)
      rw [lookupKey, if_neg hkne]
      exact ih hn.2 h

theorem setKeyG_self {β : Type} :
    ∀ {l : List (String × β)} {k : String} {v : β},
      lookupKey l k = some v → setKeyG l k v = l := by
  intro l
  induction l with
  | nil => intro k v h; simp [lookupKey] at h
  | cons kv rest ih =>
    intro k v h
    obtain ⟨k', v'⟩ := kv
    rw [lookupKey] at h
    by_cases hk : k' = k
    · rw [if_pos hk] at h
      injection h with h'
      subst hk; subst h'
      rw [setKeyG, if_pos rfl]
    · rw [if_neg hk] at h
      rw [setKeyG, if_neg hk, ih h]

theorem mergeVal_self {v : Json} (h : deepMerge v v = v) : mergeVal (some v) v = v := by
  match v with
  | .null => rw [mergeVal] <;> simp
  | .bool _ => rw [mergeVal] <;> simp
  | .num _ => rw [mergeVal] <;> simp
  | .str _ => rw [mergeVal] <;> simp
  | .arr s =>
    rw [mergeVal]
    simpa [jsOr, Json.truthy] using h
  | .obj s =>
    rw [mergeVal]
    simpa [jsOr, Json.truthy] using h

theorem mergeInto_self :
    ∀ (src acc : List (String × Json)),
      (∀ kv ∈ src, lookupKey acc kv.1 = some kv.2) →
      (∀ kv ∈ src, mergeVal (some kv.2) kv.2 = kv.2) →
      mergeInto acc src = acc := by
  intro src
  induction src with
  | nil => intro acc _ _; rw [mergeInto]
  | cons kv rest ih =>
    intro acc hl hm
    obtain ⟨k, v⟩ := kv
    rw [mergeInto]
    rw [hl (k, v) (by simp)]
    rw [hm (k, v) (by simp)]
    rw [setKeyG_self (hl (k, v) (by simp))]
    exact ih acc (fun kv h => hl kv (by simp [h])) (fun kv h => hm kv (by simp [h]))

/-! ## Associativity of the deep merger

`deepMerge` loops over the source's keys and writes into the target object, so
an extensional description of `mergeInto` — its key list and its per-key
lookups — reduces associativity to a per-key statement about `mergeVal`. -/

theorem dedupF_idem [DecidableEq α] (l : List α) : dedupF (dedupF l) = dedupF l := by
  rw [dedupF_eq_dedupW, dedupF_eq_dedupW]
  exact dedupW_idem l

theorem lookupKey_mem {β : Type} :
    ∀ {l : List (String × β)} {k : String} {v : β},
      lookupKey l k = some v → (k, v) ∈ l := by
  intro l
  induction l with
  | nil => intro k v h; rw [lookupKey] at h; exact Option.noConfusion h
  | cons kv rest ih =>
    intro k v h
    obtain ⟨k', v'⟩ := kv
    rw [lookupKey] at h
    by_cases hk : k' = k
    · rw [if_pos hk] at h
      injection h with h'
      subst hk; subst h'
      exact List.mem_cons_self _ _
    · rw [if_neg hk] at h
      exact List.mem_cons_of_mem _ (ih h)

theorem setKeyG_keys_of_mem {β : Type} :
    ∀ {l : List (String × β)} {k : String} (v : β), k ∈ l.map Prod.fst →
      (setKeyG l k v).map Prod.fst = l.map Prod.fst := by
  intro l
  induction l with
  | nil => intro k v h; simp at h
  | cons kv rest ih =>
    intro k v h
    obtain ⟨k', v'⟩ := kv
    rw [setKeyG]
    by_cases hk : k' = k
    · rw [if_pos hk]; simp [hk]
    · rw [if_neg hk]
      simp only [List.map_cons, List.mem_cons] at h
      rcases h with h | h
      · exact absurd h.symm hk
      · simp only [List.map_cons]
        rw [ih v h]

theorem setKeyG_keys_of_not_mem {β : Type} :
    ∀ {l : List (String × β)} {k : String} (v : β), k ∉ l.map Prod.fst →
      (setKeyG l k v).map Prod.fst = l.map Prod.fst ++ [k] := by
  intro l
  induction l with
  | nil => intro k v _; simp [setKeyG]
  | cons kv rest ih =>
    intro k v h
    obtain ⟨k', v'⟩ := kv
    simp only [List.map_cons, List.mem_cons] at h
    push_neg at h
    rw [setKeyG, if_neg (fun he => h.1 he.symm)]
    simp only [List.map_cons, List.cons_append]
    rw [ih v h.2]

theorem lookupKey_setKeyG_self {β : Type} :
    ∀ (l : List (String × β)) (k : String) (v : β),
      lookupKey (setKeyG l k v) k = some v := by
  intro l
  induction l with
  | nil => intro k v; rw [setKeyG, lookupKey, if_pos rfl]
  | cons kv rest ih =>
    intro k v
    obtain ⟨k', v'⟩ := kv
    rw [setKeyG]
    by_cases hk : k' = k
    · rw [if_pos hk, lookupKey, if_pos rfl]
    · rw [if_neg hk, lookupKey, if_neg hk]
      exact ih k v

theorem lookupKey_setKeyG_other {β : Type} :
    ∀ (l : List (String × β)) {k k' : String} (v : β), k' ≠ k →
      lookupKey (setKeyG l k v) k' = lookupKey l k' := by
  intro l
  induction l with
  | nil =>
    intro k k' v h
    simp [setKeyG, lookupKey, Ne.symm h]
  | cons kv rest ih =>
    intro k k' v h
    obtain ⟨k₁, v₁⟩ := kv
    by_cases hk : k₁ = k
    · subst hk
      rw [setKeyG, if_pos rfl, lookupKey, if_neg (Ne.symm h), lookupKey, if_neg (Ne.symm h)]
    · rw [setKeyG, if_neg hk, lookupKey, lookupKey]
      by_cases hk' : k₁ = k'
      · rw [if_pos hk', if_pos hk']
      · rw [if_neg hk', if_neg hk']
        exact ih v h

theorem mergeInto_nil (acc : List (String × Json)) : mergeInto acc [] = acc := by
  rw [mergeInto]

theorem mergeInto_keys :
    ∀ (s acc : List (String × Json)), (s.map Prod.fst).Nodup →
      (mergeInto acc s).map Prod.fst
        = acc.map Prod.fst
          ++ (s.map Prod.fst).filter (fun k => k ∉ acc.map Prod.fst) := by
  intro s
  induction s with
  | nil => intro acc _; rw [mergeInto]; simp
  | cons kv rest ih =>
    intro acc hn
    obtain ⟨k₀, sv₀⟩ := kv
    simp only [List.map_cons, List.nodup_cons] at hn
    rw [mergeInto]
    rw [ih _ hn.2]
    by_cases hm : k₀ ∈ acc.map Prod.fst
    · rw [setKeyG_keys_of_mem _ hm]
      rw [List.map_cons, List.filter_cons, if_neg (by simp [hm])]
    · rw [setKeyG_keys_of_not_mem _ hm]
      rw [List.map_cons, List.filter_cons, if_pos (by simp [hm])]
      rw [List.append_assoc, List.singleton_append]
      congr 2
      apply List.filter_congr
      intro x hx
      have hxk : x ≠ k₀ := fun h => hn.1 (h ▸ hx)
      simp [List.mem_append, hxk]

theorem mergeInto_keys_nodup (s acc : List (String × Json))
    (hs : (s.map Prod.fst).Nodup) (hacc : (acc.map Prod.fst).Nodup) :
    ((mergeInto acc s).map Prod.fst).Nodup := by
  rw [mergeInto_keys s acc hs]
  refine List.Nodup.append hacc (hs.filter _) ?_
  intro x hx hx'
  have := List.of_mem_filter hx'
  simp only [decide_eq_true_eq] at this
  exact this hx

theorem mergeInto_lookupKey_none :
    ∀ (s acc : List (String × Json)) (k : String),
      lookupKey s k = none →
      lookupKey (mergeInto acc s) k = lookupKey acc k := by
  intro s
  induction s with
  | nil => intro acc k _; rw [mergeInto]
  | cons kv rest ih =>
    intro acc k h
    obtain ⟨k₀, sv₀⟩ := kv
    rw [lookupKey] at h
    by_cases hk : k₀ = k
    · rw [if_pos hk] at h; exact Option.noConfusion h
    · rw [if_neg hk] at h
      rw [mergeInto, ih _ k h, lookupKey_setKeyG_other _ _ (fun he => hk he.symm)]

theorem mergeInto_lookupKey_some :
    ∀ (s acc : List (String × Json)) (k : String) (sv : Json),
      (s.map Prod.fst).Nodup →
      lookupKey s k = some sv →
      lookupKey (mergeInto acc s) k = some (mergeVal (lookupKey acc k) sv) := by
  intro s
  induction s with
  | nil => intro acc k sv _ h; rw [lookupKey] at h; exact Option.noConfusion h
  | cons kv rest ih =>
    intro acc k sv hn h
    obtain ⟨k₀, sv₀⟩ := kv
    simp only [List.map_cons, List.nodup_cons] at hn
    rw [lookupKey] at h
    rw [mergeInto]
    by_cases hk : k₀ = k
    · rw [if_pos hk] at h
      injection h with h'
      subst hk
      subst h'
      rw [mergeInto_lookupKey_none rest _ _ (lookupKey_eq_none hn.1)]
      rw [lookupKey_setKeyG_self]
    · rw [if_neg hk] at h
      rw [ih _ k sv hn.2 h]
      rw [lookupKey_setKeyG_other _ _ (fun he => hk he.symm)]

theorem filter_filter_of_imp {α : Type} (p q r : α → Bool) (l : List α)
    (h : ∀ x, q x = (p x && r x)) : l.filter q = (l.filter r).filter p := by
  induction l with
  | nil => rfl
  | cons a as ih =>
    cases hp : p a <;> cases hr : r a <;>
      simp [List.filter_cons, h a, hp, hr, ih]

theorem assocList_ext {β : Type} :
    ∀ {l₁ l₂ : List (String × β)},
      (l₁.map Prod.fst).Nodup →
      l₁.map Prod.fst = l₂.map Prod.fst →
      (∀ k, lookupKey l₁ k = lookupKey l₂ k) →
      l₁ = l₂ := by
  intro l₁
  induction l₁ with
  | nil =>
    intro l₂ _ hk _
    cases l₂ with
    | nil => rfl
    | cons kv rest => simp at hk
  | cons kv r₁ ih =>
    intro l₂ hn hk hl
    obtain ⟨k, v⟩ := kv
    cases l₂ with
    | nil => simp at hk
    | cons kv₂ r₂ =>
      obtain ⟨k₂, v₂⟩ := kv₂
      simp only [List.map_cons, List.cons.injEq] at hk
      obtain ⟨hkk, hkr⟩ := hk
      subst hkk
      simp only [List.map_cons, List.nodup_cons] at hn
      have hv : v = v₂ := by
        have := hl k
        rw [lookupKey, if_pos rfl, lookupKey, if_pos rfl] at this
        exact Option.some.inj this
      subst hv
      have htail : ∀ k', lookupKey r₁ k' = lookupKey r₂ k' := by
        intro k'
        by_cases hk' : k = k'
        · subst hk'
          rw [lookupKey_eq_none hn.1, lookupKey_eq_none (hkr ▸ hn.1)]
        · have := hl k'
          rw [lookupKey, if_neg hk', lookupKey, if_neg hk'] at this
          exact this
      rw [ih hn.2 hkr htail]

theorem deepMerge_arr_arr (t s : List Json) :
    deepMerge (.arr t) (.arr s) = Json.arr (dedupF (t ++ s)) := by
  rw [deepMerge]

theorem deepMerge_obj_obj (t s : List (String × Json)) :
    deepMerge (.obj t) (.obj s) = Json.obj (mergeInto t s) := by
  rw [deepMerge]

/-- `deepMerge` into a scalar source ignores the target. -/
theorem deepMerge_scalar {s : Json} (h1 : ∀ l, s ≠ Json.arr l)
    (h2 : ∀ l, s ≠ Json.obj l) (x : Json) : deepMerge x s = s := by
  cases s with
  | arr l => exact absurd rfl (h1 l)
  | obj l => exact absurd rfl (h2 l)
  | null => rw [deepMerge] <;> simp
  | bool b => rw [deepMerge] <;> simp
  | num n => rw [deepMerge] <;> simp
  | str t => rw [deepMerge] <;> simp

theorem mergeVal_null (t : Option Json) : mergeVal t .null = .null := by
  rw [mergeVal] <;> simp

theorem mergeVal_bool (t : Option Json) (b : Bool) : mergeVal t (.bool b) = .bool b := by
  rw [mergeVal] <;> simp

theorem mergeVal_num (t : Option Json) (m : Int) : mergeVal t (.num m) = .num m := by
  rw [mergeVal] <;> simp

theorem mergeVal_str (t : Option Json) (s : String) : mergeVal t (.str s) = .str s := by
  rw [mergeVal] <;> simp

theorem mergeVal_none_arr (s : List Json) : mergeVal none (.arr s) = .arr (dedupF s) := by
  rw [mergeVal]
  show deepMerge (.arr []) (.arr s) = _
  rw [deepMerge_arr_arr, List.nil_append]

theorem mergeVal_some_arr (t s : List Json) :
    mergeVal (some (.arr t)) (.arr s) = .arr (dedupF (t ++ s)) := by
  rw [mergeVal]
  show deepMerge (jsOr (some (.arr t)) (.arr [])) (.arr s) = _
  rw [show jsOr (some (.arr t)) (.arr []) = .arr t from rfl, deepMerge_arr_arr]

theorem mergeVal_none_obj (s : List (String × Json)) :
    mergeVal none (.obj s) = .obj (mergeInto [] s) := by
  rw [mergeVal]
  show deepMerge (.obj []) (.obj s) = _
  rw [deepMerge_obj_obj]

theorem mergeVal_some_obj (t s : List (String × Json)) :
    mergeVal (some (.obj t)) (.obj s) = .obj (mergeInto t s) := by
  rw [mergeVal]
  show deepMerge (jsOr (some (.obj t)) (.obj [])) (.obj s) = _
  rw [show jsOr (some (.obj t)) (.obj []) = .obj t from rfl, deepMerge_obj_obj]

/-- Well-keyed JSON tree: every object map holds each key at most once (a
JavaScript object cannot hold a key twice).  Arrays are unconstrained — the
merger never recurses into array elements. -/
inductive WFKeys : Json → Prop
  | null : WFKeys .null
  | bool (b : Bool) : WFKeys (.bool b)
  | num (n : Int) : WFKeys (.num n)
  | str (s : String) : WFKeys (.str s)
  | arr (l : List Json) : WFKeys (.arr l)
  | obj {kvs : List (String × Json)} : (kvs.map Prod.fst).Nodup →
      (∀ kv ∈ kvs, WFKeys kv.2) → WFKeys (.obj kvs)

theorem WFKeys.obj_nodup {t : List (String × Json)} (h : WFKeys (.obj t)) :
    (t.map Prod.fst).Nodup := by
  cases h with | obj h _ => exact h

theorem WFKeys.obj_val {t : List (String × Json)} (h : WFKeys (.obj t))
    {k : String} {v : Json} (hm : (k, v) ∈ t) : WFKeys v := by
  cases h with | obj _ h => exact h (k, v) hm

theorem WFKeys.lookup {t : List (String × Json)} (h : WFKeys (.obj t))
    {k : String} {v : Json} (hl : lookupKey t k = some v) : WFKeys v :=
  h.obj_val (lookupKey_mem hl)

/-- No scalar conflict between two JSON trees: arrays never conflict (they are
concatenated), objects are compared recursively on their shared keys, and any
other pair must be the same value. -/
inductive Compat : Json → Json → Prop
  | arr (t s : List Json) : Compat (.arr t) (.arr s)
  | obj {t s : List (String × Json)} :
      (∀ k v w, lookupKey t k = some v → lookupKey s k = some w → Compat v w) →
      Compat (.obj t) (.obj s)
  | scalar (v : Json) : (∀ l, v ≠ .arr l) → (∀ l, v ≠ .obj l) → Compat v v

theorem Compat.arr_right {a : Json} {s : List Json} (h : Compat a (.arr s)) :
    ∃ t, a = Json.arr t := by
  cases h with
  | arr t _ => exact ⟨t, rfl⟩
  | scalar _ hna _ => exact absurd rfl (hna s)

theorem Compat.obj_right {a : Json} {s : List (String × Json)} (h : Compat a (.obj s)) :
    ∃ t, a = Json.obj t := by
  cases h with
  | obj _ => exact ⟨_, rfl⟩
  | scalar _ _ hno => exact absurd rfl (hno s)

theorem Compat.arr_left {t : List Json} {c : Json} (h : Compat (.arr t) c) :
    ∃ s, c = Json.arr s := by
  cases h with
  | arr _ s => exact ⟨s, rfl⟩
  | scalar _ hna _ => exact absurd rfl (hna t)

theorem Compat.obj_left {t : List (String × Json)} {c : Json} (h : Compat (.obj t) c) :
    ∃ s, c = Json.obj s := by
  cases h with
  | obj _ => exact ⟨_, rfl⟩
  | scalar _ _ hno => exact absurd rfl (hno t)

theorem Compat.obj_lookup {t s : List (String × Json)} (h : Compat (.obj t) (.obj s))
    {k : String} {v w : Json} (hv : lookupKey t k = some v)
    (hw : lookupKey s k = some w) : Compat v w := by
  cases h with
  | obj hh => exact hh k v w hv hw
  | scalar _ _ hno => exact absurd rfl (hno t)

theorem Compat.scalar_right {b c : Json} (h : Compat b c)
    (h1 : ∀ l, b ≠ Json.arr l) (h2 : ∀ l, b ≠ Json.obj l) : c = b := by
  cases h with
  | arr t s => exact absurd rfl (h1 t)
  | obj _ => exact absurd rfl (h2 _)
  | scalar _ _ _ => rfl

mutual

/-- Structural size of a JSON value (the auto-derived `sizeOf` of the nested
inductive carries no executable code, so the merge induction measures with
this computable one). -/
def jsize : Json → Nat
  | .null => 1
  | .bool _ => 1
  | .num _ => 1
  | .str _ => 1
  | .arr l => 1 + jsizeA l
  | .obj l => 1 + jsizeO l

/-- Size of a JSON array body. -/
def jsizeA : List Json → Nat
  | [] => 0
  | x :: xs => 1 + jsize x + jsizeA xs

/-- Size of a JSON object body. -/
def jsizeO : List (String × Json) → Nat
  | [] => 0
  | (_, v) :: xs => 1 + jsize v + jsizeO xs

end

/-- Size of an optional merge target (`undefined` counts 0). -/
def optSize : Option Json → Nat
  | none => 0
  | some a => jsize a

/-- `WFKeys` lifted to an optional merge target. -/
def WFKeysOpt : Option Json → Prop
  | none => True
  | some a => WFKeys a

/-- `Compat` lifted to an optional merge target (an absent target conflicts
with nothing). -/
def CompatOpt : Option Json → Json → Prop
  | none, _ => True
  | some a, b => Compat a b

theorem jsizeO_val_lt : ∀ {t : List (String × Json)} {k : String} {v : Json},
    (k, v) ∈ t → jsize v < jsizeO t := by
  intro t
  induction t with
  | nil => intro k v h; simp at h
  | cons kv rest ih =>
    intro k v h
    obtain ⟨k', v'⟩ := kv
    rw [jsizeO]
    rcases List.mem_cons.mp h with h | h
    · injection h with h1 h2
      subst h2
      omega
    · have := ih h
      omega

theorem jsize_lookup_lt {t : List (String × Json)} {k : String} {v : Json}
    (h : lookupKey t k = some v) : jsize v < jsize (Json.obj t) := by
  have := jsizeO_val_lt (lookupKey_mem h)
  rw [jsize]
  omega

/-- List-level associativity of the key-merging loop, reduced to the three
per-key situations that involve a recursive `mergeVal` fact: both sides
present in `tb` and `tc` (`hrec8`), only `tc` with an empty target (`hrec1`),
and only `tc` over an `A'` entry (`hrec2`). -/
theorem mergeInto_assoc_pointwise (A' tb tc : List (String × Json))
    (hA : (A'.map Prod.fst).Nodup) (hb : (tb.map Prod.fst).Nodup)
    (hc : (tc.map Prod.fst).Nodup)
    (hrec8 : ∀ k bv cv, lookupKey tb k = some bv → lookupKey tc k = some cv →
      mergeVal (some (mergeVal (lookupKey A' k) bv)) cv
        = mergeVal (lookupKey A' k) (mergeVal (some bv) cv))
    (hrec1 : ∀ k cv, lookupKey A' k = none → lookupKey tb k = none →
      lookupKey tc k = some cv → mergeVal none (mergeVal none cv) = mergeVal none cv)
    (hrec2 : ∀ k av cv, lookupKey A' k = some av → lookupKey tb k = none →
      lookupKey tc k = some cv →
      mergeVal (some av) (mergeVal none cv) = mergeVal (some av) cv) :
    mergeInto (mergeInto A' tb) tc = mergeInto A' (mergeInto tb tc) := by
  have hbc : ((mergeInto tb tc).map Prod.fst).Nodup := mergeInto_keys_nodup tc tb hc hb
  have hab : ((mergeInto A' tb).map Prod.fst).Nodup := mergeInto_keys_nodup tb A' hb hA
  apply assocList_ext (mergeInto_keys_nodup tc (mergeInto A' tb) hc hab)
  · rw [mergeInto_keys tc (mergeInto A' tb) hc, mergeInto_keys tb A' hb,
      mergeInto_keys (mergeInto tb tc) A' hbc, mergeInto_keys tc tb hc]
    rw [List.filter_append, List.append_assoc]
    congr 1
    congr 1
    refine filter_filter_of_imp _ _ _ _ ?_
    intro x
    by_cases h1 : x ∈ A'.map Prod.fst <;> by_cases h2 : x ∈ tb.map Prod.fst <;>
      simp [h1, h2, List.mem_append, List.mem_filter]
  · intro k
    cases htc : lookupKey tc k with
    | none =>
      rw [mergeInto_lookupKey_none tc _ k htc]
      have h2 := mergeInto_lookupKey_none tc tb k htc
      cases htb : lookupKey tb k with
      | none =>
        rw [mergeInto_lookupKey_none tb _ k htb]
        rw [mergeInto_lookupKey_none _ _ k (h2.trans htb)]
      | some bv =>
        rw [mergeInto_lookupKey_some tb _ k bv hb htb]
        rw [mergeInto_lookupKey_some _ A' k bv hbc (h2.trans htb)]
    | some cv =>
      rw [mergeInto_lookupKey_some tc _ k cv hc htc]
      have h2 := mergeInto_lookupKey_some tc tb k cv hc htc
      rw [mergeInto_lookupKey_some _ A' k _ hbc h2]
      cases htb : lookupKey tb k with
      | some bv =>
        rw [mergeInto_lookupKey_some tb A' k bv hb htb]
        exact congrArg some (hrec8 k bv cv htb htc)
      | none =>
        rw [mergeInto_lookupKey_none tb A' k htb]
        cases hA' : lookupKey A' k with
        | none => exact congrArg some (hrec1 k cv hA' htb htc).symm
        | some av => exact congrArg some (hrec2 k av cv hA' htb htc).symm

/-- Normalizing against an absent target (`merged[key] || \x7b\x7d` /
`|| []` with `merged[key]` undefined) is idempotent, for sources of size at
most `n`. -/
def MStmt1 (n : Nat) : Prop :=
  ∀ c : Json, jsize c ≤ n → WFKeys c →
    mergeVal none (mergeVal none c) = mergeVal none c

/-- Merging a normalized source into a present target equals merging the
source directly, for compatible values of combined size at most `n`. -/
def MStmt2 (n : Nat) : Prop :=
  ∀ a c : Json, jsize a + jsize c ≤ n → WFKeys a → WFKeys c → Compat a c →
    mergeVal (some a) (mergeVal none c) = mergeVal (some a) c

/-- Per-key associativity of `mergeVal` over an optional original target, for
combined size at most `n`. -/
def MStmt3 (n : Nat) : Prop :=
  ∀ (A : Option Json) (b c : Json), optSize A + jsize b + jsize c ≤ n →
    WFKeysOpt A → WFKeys b → WFKeys c → CompatOpt A b → CompatOpt A c →
    Compat b c →
    mergeVal (some (mergeVal A b)) c = mergeVal A (mergeVal (some b) c)

theorem merge_master : ∀ n : Nat, MStmt1 n ∧ MStmt2 n ∧ MStmt3 n := by
  intro n
  induction n using Nat.strong_induction_on with
  | _ n ih =>
    refine ⟨?_, ?_, ?_⟩
    · intro c hsz hwc
      cases c with
      | null => simp only [mergeVal_null]
      | bool b => simp only [mergeVal_bool]
      | num m => simp only [mergeVal_num]
      | str s => simp only [mergeVal_str]
      | arr s => rw [mergeVal_none_arr, mergeVal_none_arr, dedupF_idem]
      | obj t =>
        rw [mergeVal_none_obj, mergeVal_none_obj]
        congr 1
        have key : mergeInto (mergeInto [] []) t = mergeInto [] (mergeInto [] t) := by
          refine mergeInto_assoc_pointwise [] [] t (by simp) (by simp)
            hwc.obj_nodup ?_ ?_ ?_
          · intro k bv cv hbv _
            rw [lookupKey] at hbv
            exact Option.noConfusion hbv
          · intro k cv _ _ hcv
            have hlt := jsize_lookup_lt hcv
            exact (ih (jsize cv) (by omega)).1 cv le_rfl (hwc.lookup hcv)
          · intro k av cv hav _ _
            rw [lookupKey] at hav
            exact Option.noConfusion hav
        rw [mergeInto_nil] at key
        exact key.symm
    · intro a c hsz hwa hwc hcompat
      cases c with
      | null => simp only [mergeVal_null]
      | bool b => simp only [mergeVal_bool]
      | num m => simp only [mergeVal_num]
      | str s => simp only [mergeVal_str]
      | arr s =>
        obtain ⟨t, rfl⟩ := hcompat.arr_right
        rw [mergeVal_none_arr, mergeVal_some_arr, mergeVal_some_arr,
          dedupF_append_dedupF]
      | obj s =>
        obtain ⟨t, rfl⟩ := hcompat.obj_right
        rw [mergeVal_none_obj, mergeVal_some_obj, mergeVal_some_obj]
        congr 1
        have key : mergeInto (mergeInto t []) s = mergeInto t (mergeInto [] s) := by
          refine mergeInto_assoc_pointwise t [] s hwa.obj_nodup (by simp)
            hwc.obj_nodup ?_ ?_ ?_
          · intro k bv cv hbv _
            rw [lookupKey] at hbv
            exact Option.noConfusion hbv
          · intro k cv _ _ hcv
            have hlt := jsize_lookup_lt hcv
            exact (ih (jsize cv) (by omega)).1 cv le_rfl (hwc.lookup hcv)
          · intro k av cv hav _ hcv
            have h1 := jsize_lookup_lt hav
            have h2 := jsize_lookup_lt hcv
            exact (ih (jsize av + jsize cv) (by omega)).2.1 av cv le_rfl
              (hwa.lookup hav) (hwc.lookup hcv) (hcompat.obj_lookup hav hcv)
        rw [mergeInto_nil] at key
        exact key.symm
    · intro A b c hsz hwA hwb hwc hAb hAc hbc
      cases c with
      | null => simp only [mergeVal_null]
      | bool x => simp only [mergeVal_bool]
      | num x => simp only [mergeVal_num]
      | str x => simp only [mergeVal_str]
      | arr s =>
        obtain ⟨tb, rfl⟩ := hbc.arr_right
        cases A with
        | none =>
          rw [mergeVal_none_arr, mergeVal_some_arr, mergeVal_some_arr,
            mergeVal_none_arr, dedupF_dedupF_append, dedupF_idem]
        | some a =>
          obtain ⟨ta, rfl⟩ := Compat.arr_right (show Compat a (.arr tb) from hAb)
          rw [mergeVal_some_arr, mergeVal_some_arr, mergeVal_some_arr,
            mergeVal_some_arr, dedupF_dedupF_append, dedupF_append_dedupF,
            List.append_assoc]
      | obj tc =>
        obtain ⟨tb, rfl⟩ := hbc.obj_right
        cases A with
        | none =>
          rw [mergeVal_none_obj, mergeVal_some_obj, mergeVal_some_obj,
            mergeVal_none_obj]
          congr 1
          refine mergeInto_assoc_pointwise [] tb tc (by simp) hwb.obj_nodup
            hwc.obj_nodup ?_ ?_ ?_
          · intro k bv cv hbv hcv
            have h1 := jsize_lookup_lt hbv
            have h2 := jsize_lookup_lt hcv
            show mergeVal (some (mergeVal none bv)) cv
              = mergeVal none (mergeVal (some bv) cv)
            exact (ih (optSize none + jsize bv + jsize cv)
                (by simp only [optSize] at hsz ⊢; omega)).2.2
              none bv cv le_rfl (by trivial) (hwb.lookup hbv) (hwc.lookup hcv)
              (by trivial) (by trivial) (hbc.obj_lookup hbv hcv)
          · intro k cv _ _ hcv
            have hlt := jsize_lookup_lt hcv
            exact (ih (jsize cv) (by omega)).1 cv le_rfl (hwc.lookup hcv)
          · intro k av cv hav _ _
            rw [lookupKey] at hav
            exact Option.noConfusion hav
        | some a =>
          obtain ⟨ta, rfl⟩ := Compat.obj_right (show Compat a (.obj tb) from hAb)
          have hwta : WFKeys (.obj ta) := hwA
          have hcab : Compat (.obj ta) (.obj tb) := hAb
          have hcac : Compat (.obj ta) (.obj tc) := hAc
          rw [mergeVal_some_obj, mergeVal_some_obj, mergeVal_some_obj,
            mergeVal_some_obj]
          congr 1
          refine mergeInto_assoc_pointwise ta tb tc hwta.obj_nodup
            hwb.obj_nodup hwc.obj_nodup ?_ ?_ ?_
          · intro k bv cv hbv hcv
            have h1 := jsize_lookup_lt hbv
            have h2 := jsize_lookup_lt hcv
            cases hA' : lookupKey ta k with
            | none =>
              exact (ih (optSize none + jsize bv + jsize cv)
                  (by simp only [optSize] at hsz ⊢; omega)).2.2
                none bv cv le_rfl (by trivial) (hwb.lookup hbv) (hwc.lookup hcv)
                (by trivial) (by trivial) (hbc.obj_lookup hbv hcv)
            | some av =>
              have h3 := jsize_lookup_lt hA'
              exact (ih (optSize (some av) + jsize bv + jsize cv)
                  (by simp only [optSize] at hsz ⊢; omega)).2.2
                (some av) bv cv le_rfl
                (show WFKeysOpt (some av) from hwta.lookup hA')
                (hwb.lookup hbv) (hwc.lookup hcv)
                (show CompatOpt (some av) bv from hcab.obj_lookup hA' hbv)
                (show CompatOpt (some av) cv from hcac.obj_lookup hA' hcv)
                (hbc.obj_lookup hbv hcv)
          · intro k cv _ _ hcv
            have hlt := jsize_lookup_lt hcv
            exact (ih (jsize cv) (by omega)).1 cv le_rfl (hwc.lookup hcv)
          · intro k av cv hav _ hcv
            have h1 := jsize_lookup_lt hav
            have h2 := jsize_lookup_lt hcv
            exact (ih (jsize av + jsize cv)
                (by simp only [optSize] at hsz; omega)).2.1 av cv le_rfl
              (hwta.lookup hav) (hwc.lookup hcv) (hcac.obj_lookup hav hcv)

/-! ## Template-engine round trip

Facts about `replaceVariables` followed by `extractVariables`.  A context
value can splice new placeholders into the output (see the C9
counterexample), so the round-trip property needs a condition on the context:
every value is nonempty and holds neither braces nor name characters. -/

/-- A character that can neither open nor close a placeholder nor be part of
a variable name. -/
def plainChar (ch : Char) : Bool := !(ch == '{') && !(ch == '}') && !(nameChar ch)

/-- A context whose values are nonempty strings of `plainChar` characters:
substitution can then never splice new placeholders into the output. -/
def GoodCtx (ctx : List (String × String)) : Bool :=
  ctx.all (fun kv => !kv.2.data.isEmpty && kv.2.data.all plainChar)

theorem nameStart_nameChar {c : Char} (h : nameStart c = true) : nameChar c = true := by
  simp only [nameStart, Bool.or_eq_true] at h
  simp only [nameChar, Bool.or_eq_true]
  tauto

theorem nameChar_ne_lb {c : Char} (h : nameChar c = true) : c ≠ '{' := by
  intro he
  subst he
  exact absurd h (by decide)

theorem nameStart_false_of_nameChar_false {c : Char} (h : nameChar c = false) :
    nameStart c = false := by
  cases hs : nameStart c with
  | false => rfl
  | true => rw [nameStart_nameChar hs] at h; exact Bool.noConfusion h

theorem plainChar_spec {ch : Char} (h : plainChar ch = true) :
    ch ≠ '{' ∧ ch ≠ '}' ∧ nameChar ch = false := by
  simp only [plainChar, Bool.and_eq_true, Bool.not_eq_true', beq_eq_false_iff_ne,
    Bool.not_eq_true] at h
  tauto

theorem GoodCtx_val {ctx : List (String × String)} (hg : GoodCtx ctx = true)
    {s v : String} (hl : lookupKey ctx s = some v) :
    v.data ≠ [] ∧ ∀ ch ∈ v.data, plainChar ch = true := by
  have hm := lookupKey_mem hl
  have hall := List.all_eq_true.mp hg (s, v) hm
  rw [Bool.and_eq_true] at hall
  constructor
  · intro hnil
    have h1 := hall.1
    rw [hnil] at h1
    simp at h1
  · intro ch hch
    exact List.all_eq_true.mp hall.2 ch hch

theorem phOut_none_of_head {c : Char} (hc : c ≠ '{') (l : List Char)
    {ctx : List (String × String)} : phOut ctx (c :: l) = none := by
  cases l with
  | nil => rfl
  | cons d r => rw [phOut, if_neg (fun hx => hc hx.1)]

theorem phName_none_of_head {c : Char} (hc : c ≠ '{') (l : List Char) :
    phName (c :: l) = none := by
  cases l with
  | nil => rfl
  | cons d r => rw [phName, if_neg (fun hx => hc hx.1)]

theorem phOut_none_of_second {d : Char} (hd : d ≠ '{') (c : Char) (r : List Char)
    {ctx : List (String × String)} : phOut ctx (c :: d :: r) = none := by
  rw [phOut, if_neg (fun hx => hd hx.2)]

theorem phName_none_of_second {d : Char} (hd : d ≠ '{') (c : Char) (r : List Char) :
    phName (c :: d :: r) = none := by
  rw [phName, if_neg (fun hx => hd hx.2)]

theorem phOut_some_inv {ctx : List (String × String)} {l out : List Char} {k : Nat}
    (h : phOut ctx l = some (out, k)) :
    ∃ rest nm r, l = '{' :: '{' :: rest ∧ parseVar rest = some (nm, r) ∧
      out = phRender ctx nm ∧ k = nm.length + 3 := by
  rcases l with _ | ⟨c₁, _ | ⟨c₂, rest⟩⟩
  · exact Option.noConfusion h
  · exact Option.noConfusion h
  · rw [phOut] at h
    by_cases hbr : c₁ = '{' ∧ c₂ = '{'
    · rw [if_pos hbr] at h
      obtain ⟨h1, h2⟩ := hbr
      subst h1
      subst h2
      cases hp : parseVar rest with
      | none => rw [hp] at h; exact Option.noConfusion h
      | some p =>
        obtain ⟨nm, r⟩ := p
        rw [hp] at h
        injection h with h'
        injection h' with ho hk
        exact ⟨rest, nm, r, rfl, hp, ho.symm, hk.symm⟩
    · rw [if_neg hbr] at h
      exact Option.noConfusion h

theorem dropWhile_all_append {p : Char → Bool} :
    ∀ {l₁ : List Char}, l₁.all p = true → ∀ (l₂ : List Char),
      (l₁ ++ l₂).dropWhile p = l₂.dropWhile p := by
  intro l₁
  induction l₁ with
  | nil => intro _ l₂; rfl
  | cons a l' ih =>
    intro h l₂
    rw [List.all_cons, Bool.and_eq_true] at h
    rw [List.cons_append, List.dropWhile_cons, if_pos h.1]
    exact ih h.2 l₂

theorem takeWhile_all_append {p : Char → Bool} :
    ∀ {l₁ : List Char}, l₁.all p = true → ∀ (l₂ : List Char),
      (l₁ ++ l₂).takeWhile p = l₁ ++ l₂.takeWhile p := by
  intro l₁
  induction l₁ with
  | nil => intro _ l₂; rfl
  | cons a l' ih =>
    intro h l₂
    rw [List.all_cons, Bool.and_eq_true] at h
    rw [List.cons_append, List.takeWhile_cons, if_pos h.1, ih h.2 l₂, List.cons_append]

theorem dropWhile_head_false {p : Char → Bool} :
    ∀ {l : List Char} {a : Char} {l' : List Char},
      l.dropWhile p = a :: l' → p a = false := by
  intro l
  induction l with
  | nil => intro a l' h; exact List.noConfusion h
  | cons x xs ih =>
    intro a l' h
    rw [List.dropWhile_cons] at h
    by_cases hp : p x = true
    · rw [if_pos hp] at h
      exact ih h
    · rw [if_neg hp] at h
      injection h with h1 h2
      subst h1
      exact Bool.eq_false_iff.mpr hp

theorem parseVar_name_append {c : Char} {tail : List Char} (hs : nameStart c = true)
    (ht : tail.all nameChar = true) (X : List Char) :
    parseVar (c :: (tail ++ '}' :: '}' :: X)) = some (c :: tail, X) := by
  rw [parseVar, if_pos hs]
  have hd : (tail ++ '}' :: '}' :: X).dropWhile nameChar = '}' :: '}' :: X := by
    rw [dropWhile_all_append ht, List.dropWhile_cons, if_neg (by decide)]
  have htk : (tail ++ '}' :: '}' :: X).takeWhile nameChar = tail := by
    rw [takeWhile_all_append ht, List.takeWhile_cons, if_neg (by decide),
      List.append_nil]
  rw [hd, htk]
  rfl

theorem parseVar_none_of_head {h : Char} (hh : nameStart h = false) (w : List Char) :
    parseVar (h :: w) = none := by
  rw [parseVar, if_neg (by simp [hh])]

theorem parseVar_none_of_dropWhile_nil {c : Char} {w : List Char}
    (hdw : w.dropWhile nameChar = []) : parseVar (c :: w) = none := by
  rw [parseVar]
  by_cases hs : nameStart c = true
  · rw [if_pos hs, hdw]
  · rw [if_neg hs]

theorem parseVar_none_of_dropWhile_single {c : Char} {w : List Char} {d : Char}
    (hdw : w.dropWhile nameChar = [d]) : parseVar (c :: w) = none := by
  rw [parseVar]
  by_cases hs : nameStart c = true
  · rw [if_pos hs, hdw]
  · rw [if_neg hs]

theorem parseVar_none_of_dropWhile {c : Char} {w : List Char} {d : Char} {x : List Char}
    (hdw : w.dropWhile nameChar = d :: x) (hd : d ≠ '}') :
    parseVar (c :: w) = none := by
  rw [parseVar]
  by_cases hs : nameStart c = true
  · rw [if_pos hs, hdw]
    cases x with
    | nil => rfl
    | cons d₂ r => exact if_neg (fun hx => hd hx.1)
  · rw [if_neg hs]

theorem parseVar_none_of_dropWhile_rb {c : Char} {w : List Char} {d₂ : Char}
    {x : List Char} (hdw : w.dropWhile nameChar = '}' :: d₂ :: x) (hd : d₂ ≠ '}') :
    parseVar (c :: w) = none := by
  rw [parseVar]
  by_cases hs : nameStart c = true
  · rw [if_pos hs, hdw]
    exact if_neg (fun hx => hd hx.2)
  · rw [if_neg hs]

theorem parseVar_none_inv {c : Char} {w : List Char} {d₂ : Char} {x : List Char}
    (hu : parseVar (c :: w) = none) (hs : nameStart c = true)
    (hdw : w.dropWhile nameChar = '}' :: d₂ :: x) : d₂ ≠ '}' := by
  rw [parseVar, if_pos hs, hdw] at hu
  intro he
  subst he
  simp at hu

/-- A prefix without opening braces is scanned verbatim. -/
theorem rep_append_no_lb (ctx : List (String × String)) :
    ∀ (v w : List Char), (∀ ch ∈ v, ch ≠ '{') →
      repChars ctx (v ++ w) = v ++ repChars ctx w := by
  intro v
  induction v with
  | nil => intro w _; rfl
  | cons a v' ih =>
    intro w hv
    rw [List.cons_append, repChars_skip (phOut_none_of_head (hv a (by simp)) _)]
    rw [ih w (fun ch hch => hv ch (by simp [hch]))]
    rfl

/-- A prefix without opening braces contributes no extracted names. -/
theorem extChars_append_no_lb :
    ∀ (v w : List Char), (∀ ch ∈ v, ch ≠ '{') → extChars (v ++ w) = extChars w := by
  intro v
  induction v with
  | nil => intro w _; rfl
  | cons a v' ih =>
    intro w hv
    rw [List.cons_append, extChars_skip (phName_none_of_head (hv a (by simp)) _)]
    exact ih w (fun ch hch => hv ch (by simp [hch]))

/-- The output of a scan over a nonempty input is nonempty, and its first
character is the input's first character, an opening brace (re-emitted
unknown placeholder) or a `plainChar` (first character of a substituted
value). -/
theorem repChars_cons_shape (ctx : List (String × String)) (hg : GoodCtx ctx = true)
    (c : Char) (u : List Char) :
    ∃ h w, repChars ctx (c :: u) = h :: w ∧
      (h = c ∨ h = '{' ∨ plainChar h = true) := by
  cases hpo : phOut ctx (c :: u) with
  | none => exact ⟨c, repChars ctx u, repChars_skip hpo, Or.inl rfl⟩
  | some p =>
    obtain ⟨out, k⟩ := p
    obtain ⟨rest, nm, r, heq, hpv, hout, hk⟩ := phOut_some_inv hpo
    injection heq with hc hu
    subst hc
    subst hu
    rw [repChars_match hpv]
    cases hl : lookupKey ctx (String.mk nm) with
    | some v =>
      have hval := GoodCtx_val hg hl
      simp only [phRender, hl]
      cases hvd : v.data with
      | nil => exact absurd hvd hval.1
      | cons hv tv =>
        refine ⟨hv, tv ++ repChars ctx r, rfl, Or.inr (Or.inr ?_)⟩
        exact hval.2 hv (hvd ▸ List.mem_cons_self _ _)
    | none =>
      simp only [phRender, hl]
      exact ⟨'{', '{' :: (nm ++ ['}', '}']) ++ repChars ctx r, rfl,
        Or.inr (Or.inl rfl)⟩

/-- Under a plain context, scanning cannot create a head-position placeholder
where the input had none: if `parseVar` fails on the input it fails on the
output. -/
theorem parseVar_repChars_none (ctx : List (String × String))
    (hg : GoodCtx ctx = true) :
    ∀ u, parseVar u = none → parseVar (repChars ctx u) = none := by
  intro u hu
  cases u with
  | nil => rfl
  | cons c u₂ =>
    by_cases hs : nameStart c = true
    · have hcl : c ≠ '{' := nameChar_ne_lb (nameStart_nameChar hs)
      rw [repChars_skip (phOut_none_of_head hcl u₂)]
      have hprall : (u₂.takeWhile nameChar).all nameChar = true := by
        simpa using List.all_takeWhile (p := nameChar) (l := u₂)
      have hrep2 : repChars ctx u₂
          = u₂.takeWhile nameChar ++ repChars ctx (u₂.dropWhile nameChar) := by
        conv_lhs => rw [← List.takeWhile_append_dropWhile (p := nameChar) (l := u₂)]
        exact rep_append_no_lb ctx _ _
          (fun ch hch => nameChar_ne_lb (List.all_eq_true.mp hprall ch hch))
      have hdw : (repChars ctx u₂).dropWhile nameChar
          = (repChars ctx (u₂.dropWhile nameChar)).dropWhile nameChar := by
        rw [hrep2]
        exact dropWhile_all_append hprall _
      cases hzz : u₂.dropWhile nameChar with
      | nil =>
        apply parseVar_none_of_dropWhile_nil
        rw [hdw, hzz]
        rfl
      | cons z₀ z' =>
        rw [hzz] at hdw
        have hz0n : nameChar z₀ = false := dropWhile_head_false hzz
        by_cases hz0 : z₀ = '}'
        · subst hz0
          cases z' with
          | nil =>
            apply parseVar_none_of_dropWhile_single
            rw [hdw]
            rfl
          | cons w₀ w' =>
            have hw0 : w₀ ≠ '}' := parseVar_none_inv hu hs hzz
            obtain ⟨h, w, hrw, hcase⟩ := repChars_cons_shape ctx hg w₀ w'
            have hhne : h ≠ '}' := by
              rcases hcase with rfl | rfl | hp
              · exact hw0
              · decide
              · exact (plainChar_spec hp).2.1
            have hE : (repChars ctx u₂).dropWhile nameChar = '}' :: h :: w := by
              rw [hdw, repChars_skip (phOut_none_of_head (by decide) (w₀ :: w')),
                hrw, List.dropWhile_cons, if_neg (by decide)]
            exact parseVar_none_of_dropWhile_rb hE hhne
        · obtain ⟨h, w, hrw, hcase⟩ := repChars_cons_shape ctx hg z₀ z'
          have hhne : h ≠ '}' := by
            rcases hcase with rfl | rfl | hp
            · exact hz0
            · decide
            · exact (plainChar_spec hp).2.1
          have hhnc : nameChar h = false := by
            rcases hcase with rfl | rfl | hp
            · exact hz0n
            · decide
            · exact (plainChar_spec hp).2.2
          have hE : (repChars ctx u₂).dropWhile nameChar = h :: w := by
            rw [hdw, hrw, List.dropWhile_cons, if_neg (by simp [hhnc])]
          exact parseVar_none_of_dropWhile hE hhne
    · have hsf : nameStart c = false := by
        cases hnc : nameStart c with
        | true => exact absurd hnc hs
        | false => rfl
      obtain ⟨h, w, hrw, hcase⟩ := repChars_cons_shape ctx hg c u₂
      rw [hrw]
      apply parseVar_none_of_head
      rcases hcase with rfl | rfl | hp
      · exact hsf
      · decide
      · exact nameStart_false_of_nameChar_false (plainChar_spec hp).2.2

/-- Under a plain context, prepending the stray brace emitted by a failed
double-brace attempt creates no new extraction match. -/
theorem extChars_lb_rep (ctx : List (String × String)) (hg : GoodCtx ctx = true) :
    ∀ rest, parseVar rest = none →
      extChars ('{' :: repChars ctx ('{' :: rest))
        = extChars (repChars ctx ('{' :: rest)) := by
  intro rest hp
  cases hpo : phOut ctx ('{' :: rest) with
  | none =>
    rw [repChars_skip hpo]
    exact extChars_fail (parseVar_repChars_none ctx hg rest hp)
  | some p =>
    obtain ⟨out, k⟩ := p
    obtain ⟨rest₂, nm, r, heq, hpv, hout, hk⟩ := phOut_some_inv hpo
    injection heq with hc hu
    subst hu
    rw [repChars_match hpv]
    cases hl : lookupKey ctx (String.mk nm) with
    | some v =>
      have hval := GoodCtx_val hg hl
      simp only [phRender, hl]
      cases hvd : v.data with
      | nil => exact absurd hvd hval.1
      | cons hv tv =>
        have hne : hv ≠ '{' := (plainChar_spec (hval.2 hv (hvd ▸ List.mem_cons_self _ _))).1
        rw [show (hv :: tv) ++ repChars ctx r = hv :: (tv ++ repChars ctx r) from rfl]
        exact extChars_skip (phName_none_of_second hne '{' _)
    | none =>
      simp only [phRender, hl]
      rw [show ('{' :: '{' :: (nm ++ ['}', '}'])) ++ repChars ctx r
          = '{' :: '{' :: ((nm ++ ['}', '}']) ++ repChars ctx r) from rfl]
      exact extChars_fail (parseVar_none_of_head (by decide) _)

/-- Main round-trip lemma: under a plain context, no extracted name of the
substituted output is a context key. -/
theorem extRep_no_keys (ctx : List (String × String)) (hg : GoodCtx ctx = true) :
    ∀ t, ∀ nm ∈ extChars (repChars ctx t), lookupKey ctx (String.mk nm) = none := by
  suffices H : ∀ N t, t.length ≤ N →
      ∀ nm ∈ extChars (repChars ctx t), lookupKey ctx (String.mk nm) = none by
    intro t
    exact H t.length t le_rfl
  intro N
  induction N with
  | zero =>
    intro t ht nm hnm
    have h0 : t = [] := List.eq_nil_of_length_eq_zero (Nat.le_zero.mp ht)
    subst h0
    simp [repChars, repAux, extChars, extAux] at hnm
  | succ N ihN =>
    intro t ht nm hnm
    cases t with
    | nil => simp [repChars, repAux, extChars, extAux] at hnm
    | cons c rest =>
      by_cases hc : c = '{'
      · subst hc
        cases rest with
        | nil => simp [repChars, repAux, phOut, extChars, extAux, phName] at hnm
        | cons d rest₂ =>
          by_cases hd : d = '{'
          · subst hd
            cases hp : parseVar rest₂ with
            | some p =>
              obtain ⟨nm₂, r⟩ := p
              have hdec := parseVar_decomp hp
              have hlen : rest₂.length = nm₂.length + 2 + r.length := by
                have := congrArg List.length hdec.1
                simp at this
                omega
              obtain ⟨c₀, tl, hnm2, hstart, hall⟩ := hdec.2
              simp only [List.length_cons] at ht
              rw [repChars_match hp] at hnm
              cases hl : lookupKey ctx (String.mk nm₂) with
              | some v =>
                have hval := GoodCtx_val hg hl
                simp only [phRender, hl] at hnm
                rw [extChars_append_no_lb v.data _
                  (fun ch hch => (plainChar_spec (hval.2 ch hch)).1)] at hnm
                refine ihN r ?_ nm hnm
                have h1 : 1 ≤ nm₂.length := by
                  rw [hnm2]
                  simp
                omega
              | none =>
                simp only [phRender, hl] at hnm
                subst hnm2
                rw [show ('{' :: '{' :: (c₀ :: tl ++ ['}', '}'])) ++ repChars ctx r
                    = '{' :: '{' :: (c₀ :: (tl ++ '}' :: '}' :: repChars ctx r))
                    from by simp] at hnm
                rw [extChars_match (parseVar_name_append hstart hall
                  (repChars ctx r))] at hnm
                rcases List.mem_cons.mp hnm with rfl | hnm
                · exact hl
                · refine ihN r ?_ nm hnm
                  simp only [List.length_cons] at hlen
                  omega
            | none =>
              rw [repChars_fail hp] at hnm
              rw [extChars_lb_rep ctx hg rest₂ hp] at hnm
              refine ihN ('{' :: rest₂) ?_ nm hnm
              simp only [List.length_cons] at ht ⊢
              omega
          · rw [repChars_skip (phOut_none_of_second hd '{' rest₂)] at hnm
            rw [repChars_skip (phOut_none_of_head hd rest₂)] at hnm
            rw [extChars_skip (phName_none_of_second hd '{' _)] at hnm
            rw [← repChars_skip (phOut_none_of_head hd rest₂)] at hnm
            refine ihN (d :: rest₂) ?_ nm hnm
            simp only [List.length_cons] at ht ⊢
            omega
      · rw [repChars_skip (phOut_none_of_head hc rest)] at hnm
        rw [extChars_skip (phName_none_of_head hc _)] at hnm
        refine ihN rest ?_ nm hnm
        simp only [List.length_cons] at ht
        omega

/-- An input on which extraction finds no placeholder is scanned verbatim. -/
theorem repChars_no_tokens (ctx : List (String × String)) :
    ∀ t, extChars t = [] → repChars ctx t = t := by
  suffices H : ∀ N t, t.length ≤ N → extChars t = [] → repChars ctx t = t by
    intro t
    exact H t.length t le_rfl
  intro N
  induction N with
  | zero =>
    intro t ht _
    have h0 : t = [] := List.eq_nil_of_length_eq_zero (Nat.le_zero.mp ht)
    subst h0
    rfl
  | succ N ihN =>
    intro t ht he
    cases t with
    | nil => rfl
    | cons c rest =>
      by_cases hc : c = '{'
      · subst hc
        cases rest with
        | nil => rfl
        | cons d rest₂ =>
          by_cases hd : d = '{'
          · subst hd
            cases hp : parseVar rest₂ with
            | some p =>
              obtain ⟨nm₂, r⟩ := p
              rw [extChars_match hp] at he
              exact absurd he (by simp)
            | none =>
              rw [repChars_fail hp]
              rw [extChars_fail hp] at he
              rw [ihN ('{' :: rest₂) (by simp only [List.length_cons] at ht ⊢; omega) he]
          · rw [repChars_skip (phOut_none_of_second hd '{' rest₂)]
            rw [extChars_skip (phName_none_of_second hd '{' rest₂)] at he
            rw [ihN (d :: rest₂) (by simp only [List.length_cons] at ht ⊢; omega) he]
      · rw [repChars_skip (phOut_none_of_head hc rest)]
        rw [extChars_skip (phName_none_of_head hc rest)] at he
        rw [ihN rest (by simp only [List.length_cons] at ht; omega) he]

theorem dedupF_eq_nil [DecidableEq α] {l : List α} (h : dedupF l = []) : l = [] := by
  cases l with
  | nil => rfl
  | cons x xs =>
    have hx : x ∈ dedupF (x :: xs) := mem_dedupF.mpr (List.mem_cons_self x xs)
    rw [h] at hx
    simp at hx

/-! ## UTF-8 round trip

`copyFile` pushes every file through `utf8Decode` then `utf8Encode`.  That
round trip is the identity exactly on content that is a valid UTF-8 encoding;
a byte outside every valid sequence is replaced by U+FFFD and re-encoded as
`EF BF BD`. -/

theorem char_valid_nat (c : Char) :
    c.toNat < 0xD800 ∨ (0xDFFF < c.toNat ∧ c.toNat < 0x110000) := c.valid

theorem utf8DecodeAux_skip :
    ∀ (pre rest : List Nat), utf8DecodeAux (pre ++ rest) pre.length
      = utf8DecodeAux rest 0 := by
  intro pre
  induction pre with
  | nil => intro rest; rfl
  | cons b pre ih =>
    intro rest
    simp only [List.cons_append, List.length_cons, utf8DecodeAux]
    exact ih rest

/-- Scan equation: decoding one scalar that consumes `ext` after its lead
byte resumes after `ext`. -/
theorem utf8Decode_cons (b : Nat) (ext rest : List Nat) (c : Char)
    (h : utf8DecodeOne b (ext ++ rest) = (c, ext.length)) :
    utf8Decode (b :: (ext ++ rest)) = c :: utf8Decode rest := by
  unfold utf8Decode
  rw [utf8DecodeAux, h]
  show c :: utf8DecodeAux (ext ++ rest) ext.length = c :: utf8DecodeAux rest 0
  rw [utf8DecodeAux_skip]

/-- Decoding the encoding of one character reads that character back. -/
theorem utf8Decode_encodeChar (c : Char) (rest : List Nat) :
    utf8Decode (utf8EncodeChar c.toNat ++ rest) = c :: utf8Decode rest := by
  have hval := char_valid_nat c
  have hofn := Char.ofNat_toNat c
  set n := c.toNat with hn
  by_cases h1 : n < 0x80
  · rw [utf8EncodeChar, if_pos h1]
    have hdec : utf8DecodeOne n (([] : List Nat) ++ rest) = (c, 0) := by
      rw [List.nil_append, utf8DecodeOne.eq_def, if_pos h1, hofn]
    have hstep := utf8Decode_cons n [] rest c hdec
    rw [List.nil_append] at hstep
    exact hstep
  · by_cases h2 : n < 0x800
    · rw [utf8EncodeChar, if_neg h1, if_pos h2]
      have hdec : utf8DecodeOne (0xC0 + n / 64) ((0x80 + n % 64) :: rest) = (c, 1) := by
        rw [utf8DecodeOne.eq_def, if_neg (by omega), if_neg (by omega), if_pos (by omega)]
        show (if 0x80 ≤ 0x80 + n % 64 ∧ 0x80 + n % 64 < 0xC0 then
              (Char.ofNat ((0xC0 + n / 64 - 0xC0) * 64 + (0x80 + n % 64 - 0x80)), 1)
            else (replChar, 0)) = (c, 1)
        rw [if_pos (by omega)]
        rw [show (0xC0 + n / 64 - 0xC0) * 64 + (0x80 + n % 64 - 0x80) = n from by
          omega]
        rw [hofn]
      exact utf8Decode_cons (0xC0 + n / 64) [0x80 + n % 64] rest c hdec
    · by_cases h3 : n < 0x10000
      · rw [utf8EncodeChar, if_neg h1, if_neg h2, if_pos h3]
        have hcb : cbLo3 (0xE0 + n / 4096) ≤ 0x80 + n / 64 % 64
            ∧ 0x80 + n / 64 % 64 < cbHi3 (0xE0 + n / 4096) := by
          rw [cbLo3, cbHi3]
          by_cases he0 : 0xE0 + n / 4096 = 0xE0
          · rw [if_pos he0, if_neg (by omega)]
            omega
          · rw [if_neg he0]
            by_cases hed : 0xE0 + n / 4096 = 0xED
            · rw [if_pos hed]
              omega
            · rw [if_neg hed]
              omega
        have hdec : utf8DecodeOne (0xE0 + n / 4096)
            ((0x80 + n / 64 % 64) :: (0x80 + n % 64) :: rest) = (c, 2) := by
          rw [utf8DecodeOne.eq_def, if_neg (by omega), if_neg (by omega), if_neg (by omega),
            if_pos (by omega)]
          show (if cbLo3 (0xE0 + n / 4096) ≤ 0x80 + n / 64 % 64
                  ∧ 0x80 + n / 64 % 64 < cbHi3 (0xE0 + n / 4096) then
                if 0x80 ≤ 0x80 + n % 64 ∧ 0x80 + n % 64 < 0xC0 then
                  (Char.ofNat ((0xE0 + n / 4096 - 0xE0) * 4096
                    + (0x80 + n / 64 % 64 - 0x80) * 64 + (0x80 + n % 64 - 0x80)), 2)
                else (replChar, 1)
              else (replChar, 0)) = (c, 2)
          rw [if_pos hcb, if_pos (by omega)]
          rw [show (0xE0 + n / 4096 - 0xE0) * 4096 + (0x80 + n / 64 % 64 - 0x80) * 64
              + (0x80 + n % 64 - 0x80) = n from by omega]
          rw [hofn]
        exact utf8Decode_cons (0xE0 + n / 4096) [0x80 + n / 64 % 64, 0x80 + n % 64]
          rest c hdec
      · rw [utf8EncodeChar, if_neg h1, if_neg h2, if_neg h3]
        have hup : n < 0x110000 := by
          rcases hval with h | h
          · omega
          · exact h.2
        have hcb : cbLo4 (0xF0 + n / 262144) ≤ 0x80 + n / 4096 % 64
            ∧ 0x80 + n / 4096 % 64 < cbHi4 (0xF0 + n / 262144) := by
          rw [cbLo4, cbHi4]
          by_cases hf0 : 0xF0 + n / 262144 = 0xF0
          · rw [if_pos hf0, if_neg (by omega)]
            omega
          · rw [if_neg hf0]
            by_cases hf4 : 0xF0 + n / 262144 = 0xF4
            · rw [if_pos hf4]
              omega
            · rw [if_neg hf4]
              omega
        have hdec : utf8DecodeOne (0xF0 + n / 262144)
            ((0x80 + n / 4096 % 64) :: (0x80 + n / 64 % 64) :: (0x80 + n % 64)
              :: rest) = (c, 3) := by
          rw [utf8DecodeOne.eq_def, if_neg (by omega), if_neg (by omega), if_neg (by omega),
            if_neg (by omega), if_pos (by omega)]
          show (if cbLo4 (0xF0 + n / 262144) ≤ 0x80 + n / 4096 % 64
                  ∧ 0x80 + n / 4096 % 64 < cbHi4 (0xF0 + n / 262144) then
                if 0x80 ≤ 0x80 + n / 64 % 64 ∧ 0x80 + n / 64 % 64 < 0xC0 then
                  if 0x80 ≤ 0x80 + n % 64 ∧ 0x80 + n % 64 < 0xC0 then
                    (Char.ofNat ((0xF0 + n / 262144 - 0xF0) * 262144
                      + (0x80 + n / 4096 % 64 - 0x80) * 4096
                      + (0x80 + n / 64 % 64 - 0x80) * 64 + (0x80 + n % 64 - 0x80)), 3)
                  else (replChar, 2)
                else (replChar, 1)
              else (replChar, 0)) = (c, 3)
          rw [if_pos hcb, if_pos (by omega), if_pos (by omega)]
          rw [show (0xF0 + n / 262144 - 0xF0) * 262144
              + (0x80 + n / 4096 % 64 - 0x80) * 4096
              + (0x80 + n / 64 % 64 - 0x80) * 64 + (0x80 + n % 64 - 0x80) = n from by
            omega]
          rw [hofn]
        exact utf8Decode_cons (0xF0 + n / 262144)
          [0x80 + n / 4096 % 64, 0x80 + n / 64 % 64, 0x80 + n % 64] rest c hdec

/-- Decoding an encoded character sequence reads it back. -/
theorem utf8Decode_encode (cs : List Char) : utf8Decode (utf8Encode cs) = cs := by
  induction cs with
  | nil => rfl
  | cons c cs ih =>
    rw [show utf8Encode (c :: cs) = utf8EncodeChar c.toNat ++ utf8Encode cs from by
      simp [utf8Encode]]
    rw [utf8Decode_encodeChar, ih]

/-- The UTF-8 read/write round trip is the identity on valid UTF-8 content. -/
theorem utf8_round_trip {b : List Nat} (cs : List Char) (h : b = utf8Encode cs) :
    utf8Encode (utf8Decode b) = b := by
  subst h
  rw [utf8Decode_encode]

/-! ## Claims -/

/-- C6 counterexample: `validateManifest` does not report all error classes in
one pass, and the author-format check is fatal.  First conjunct: a manifest
failing the schema check and carrying an invalid `claudeCode` range reports
only the schema error.  Second conjunct: a manifest whose only issue is the
author format is invalid. -/
theorem claim_C6_counterexample :
    (validateManifest false ["/name: must match pattern"] false true "x" "y" "Anon").errors
        = some ["/name: must match pattern"] ∧
    (validateManifest true [] true true "^1.0.0" ">=18.0.0" "Anon").valid = false := by
  exact ⟨rfl, by decide⟩

/-- C6 (amended): `validateManifest` runs two passes and short-circuits.  A
failed schema check returns exactly the formatted schema errors, skipping the
semantic checks; when the schema check passes, the two semver checks and the
author-format check are collected together, and the manifest is valid exactly
when all three pass — the author-format check is fatal, not a non-fatal style
warning. -/
theorem claim_C6 (schemaErrors : List String) (ccOk nodeOk : Bool)
    (cc nd author : String) :
    validateManifest false schemaErrors ccOk nodeOk cc nd author
        = ⟨false, some schemaErrors⟩ ∧
    (validateManifest true schemaErrors ccOk nodeOk cc nd author).valid
        = (ccOk && nodeOk && (author.data.contains '<' || author.data.contains '@')) ∧
    (author.data.contains '<' = false → author.data.contains '@' = false →
      validateManifest true schemaErrors false false cc nd author =
        ⟨false, some ["Invalid claudeCode version range: " ++ cc,
                      "Invalid node version range: " ++ nd,
                      "Author should include email (e.g., \"Name <email@example.com>\")"]⟩) := by
  refine ⟨rfl, ?_, ?_⟩
  · by_cases hlt : '<' ∈ author.data <;> by_cases hat : '@' ∈ author.data <;>
      cases ccOk <;> cases nodeOk <;>
      simp [validateManifest, hlt, hat]
  · intro hlt hat
    have hlt' : '<' ∉ author.data := by simpa using hlt
    have hat' : '@' ∉ author.data := by simpa using hat
    simp [validateManifest, hlt', hat']

/-- C6 witness. -/
theorem claim_C6_witness :
    validateManifest false ["e1"] true true "c" "n" "A <a@b.c>" = ⟨false, some ["e1"]⟩ ∧
    (validateManifest true ["e1"] true true "c" "n" "A <a@b.c>").valid = true ∧
    validateManifest true ["e1"] false false "c" "n" "Anon" =
      ⟨false, some ["Invalid claudeCode version range: c",
                    "Invalid node version range: n",
                    "Author should include email (e.g., \"Name <email@example.com>\")"]⟩ := by
  obtain ⟨h1, h2, h3⟩ := claim_C6 ["e1"] true true "c" "n" "A <a@b.c>"
  refine ⟨h1, by rw [h2]; decide, ?_⟩
  obtain ⟨_, _, h3'⟩ := claim_C6 ["e1"] false false "c" "n" "Anon"
  exact h3' (by decide) (by decide)

/-- C7 counterexample: a non-UTF-8 binary file is not copied byte-for-byte.
The byte `0x89` (the second byte of the PNG signature) is not a valid UTF-8
sequence, so `readFile(src, 'utf-8')` decodes it to U+FFFD and the write
re-encodes that as `EF BF BD`. -/
theorem claim_C7_counterexample :
    copyFile [0x89] ".png" [] ⟨true, false⟩ none = some [0xEF, 0xBF, 0xBD] ∧
    ([0xEF, 0xBF, 0xBD] : List Nat) ≠ [0x89] := by
  decide

/-- C7 (amended): an existing destination without `force` is left
byte-identical (the copy is skipped).  When `force` is set or the destination
is absent (outside dry-run), every file is decoded as UTF-8 with U+FFFD
replacement and re-encoded on write: text-format extensions additionally get
template substitution on the decoded text, while any other extension is
written as the UTF-8 round trip of its content — byte-for-byte exactly when
the content is a valid UTF-8 encoding, not in general. -/
theorem claim_C7 (srcBytes : List Nat) (ext : String) (ctx : List (String × String))
    (opts : InstallOptions) (dest : Option (List Nat)) :
    (dest.isSome = true → opts.force = false →
      copyFile srcBytes ext ctx opts dest = dest) ∧
    (opts.dryRun = false → (opts.force = true ∨ dest = none) →
      (ext ∈ textExtensions →
        copyFile srcBytes ext ctx opts dest
          = some (utf8Encode
              ((replaceVariables (String.mk (utf8Decode srcBytes)) ctx).data))) ∧
      (ext ∉ textExtensions →
        copyFile srcBytes ext ctx opts dest
          = some (utf8Encode (utf8Decode srcBytes)) ∧
        ∀ cs : List Char, srcBytes = utf8Encode cs →
          copyFile srcBytes ext ctx opts dest = some srcBytes)) := by
  constructor
  · intro hsome hforce
    rw [copyFile, if_pos (by rw [hsome, hforce]; rfl)]
  · intro hdry hwrite
    have hcond : (dest.isSome && !opts.force) = false := by
      rcases hwrite with hf | hd
      · rw [hf]; simp
      · rw [hd]; simp
    constructor
    · intro htext
      rw [copyFile, if_neg (by rw [hcond]; simp), if_neg (by rw [hdry]; simp),
        if_pos htext]
    · intro htext
      have hbin : copyFile srcBytes ext ctx opts dest
          = some (utf8Encode (utf8Decode srcBytes)) := by
        rw [copyFile, if_neg (by rw [hcond]; simp), if_neg (by rw [hdry]; simp),
          if_neg htext]
      refine ⟨hbin, ?_⟩
      intro cs hcs
      rw [hbin, utf8_round_trip cs hcs]

/-- C7 witness: a skipped existing destination, an ASCII text file with a
substituted placeholder, and a valid-UTF-8 binary-extension file copied
byte-for-byte via the round-trip clause. -/
theorem claim_C7_witness :
    copyFile [0x61] ".md" [] ⟨false, false⟩ (some [0x62]) = some [0x62] ∧
    copyFile [0x7b, 0x7b, 0x41, 0x7d, 0x7d] ".md" [("A", "v")] ⟨true, false⟩ none
      = some [0x76] ∧
    copyFile [0x41, 0xC3, 0xA9] ".png" [] ⟨true, false⟩ none
      = some [0x41, 0xC3, 0xA9] := by
  refine ⟨(claim_C7 [0x61] ".md" [] ⟨false, false⟩ (some [0x62])).1 rfl rfl, ?_, ?_⟩
  · have h := ((claim_C7 [0x7b, 0x7b, 0x41, 0x7d, 0x7d] ".md" [("A", "v")]
      ⟨true, false⟩ none).2 rfl (Or.inr rfl)).1 (by decide)
    rw [h]
    decide
  · exact (((claim_C7 [0x41, 0xC3, 0xA9] ".png" [] ⟨true, false⟩ none).2 rfl
      (Or.inr rfl)).2 (by decide)).2 [Char.ofNat 0x41, Char.ofNat 0xE9] (by decide)

/-- C10: only placeholders of the exact form with a name matching
`[A-Z_][A-Z0-9_]*` are recognised.  Every name `extractVariables` reports
matches the pattern, and on the sample texts whose braces delimit a
non-conforming name — lowercase, digit-initial, or spaced — `replaceVariables`
is the identity for every context (even one binding the same-named key) and
`extractVariables` reports nothing. -/
theorem claim_C10 :
    (∀ (text n : String), n ∈ extractVariables text → validVarName n = true) ∧
    (∀ ctx, replaceVariables "\x7b\x7blowercase\x7d\x7d" ctx = "\x7b\x7blowercase\x7d\x7d") ∧
    (∀ ctx, replaceVariables "\x7b\x7b1BAD\x7d\x7d" ctx = "\x7b\x7b1BAD\x7d\x7d") ∧
    (∀ ctx, replaceVariables "\x7b\x7b SPACED \x7d\x7d" ctx = "\x7b\x7b SPACED \x7d\x7d") ∧
    extractVariables "\x7b\x7blowercase\x7d\x7d" = [] ∧
    extractVariables "\x7b\x7b1BAD\x7d\x7d" = [] ∧
    extractVariables "\x7b\x7b SPACED \x7d\x7d" = [] := by
  refine ⟨?_, ?_, ?_, ?_, by decide, by decide, by decide⟩
  · intro text n hn
    unfold extractVariables at hn
    rw [mem_dedupF] at hn
    simp only [List.mem_map] at hn
    obtain ⟨nl, hnl, rfl⟩ := hn
    obtain ⟨c, tail, rfl, h1, h2⟩ := extAux_shape text.data 0 nl hnl
    simp only [validVarName, String.mk]
    rw [h1, h2]
    rfl
  · intro ctx
    simp [replaceVariables, repChars, repAux, phOut, parseVar, nameStart,
      nameChar, isUpperAZ, isDigit09]
  · intro ctx
    simp [replaceVariables, repChars, repAux, phOut, parseVar, nameStart,
      nameChar, isUpperAZ, isDigit09]
  · intro ctx
    simp [replaceVariables, repChars, repAux, phOut, parseVar, nameStart,
      nameChar, isUpperAZ, isDigit09]

/-- C1: over an acyclic dependency graph, `getInstallationOrder` (given
sufficient fuel for the shallow embedding's recursion bounds) returns an
order in which every plugin appears after all of its transitive dependencies
and before any plugin depending on it, every requested plugin appears, no
plugin appears twice, and a requested plugin `a` precedes a later-requested
`b` whenever `b` is not reachable from `a` or any earlier request.  When a
cycle is reachable from a requested plugin, it instead fails with the thrown
circular-dependency error, whose reported `circular` name lies on a cycle. -/
theorem claim_C1 (avail : DepGraph) (names : List String) (fuel cf : Nat)
    (hfuel : (availNames avail).length < fuel) (hcf : (availNames avail).length < cf) :
    (Acyclic avail →
      ∃ order, getInstallationOrder avail fuel cf names = some (.ok order) ∧
        order.Nodup ∧
        (∀ n ∈ names, n ∈ order) ∧
        (∀ a b, DepPath avail a b → a ∈ order →
          b ∈ order ∧ order.indexOf b < order.indexOf a) ∧
        (∀ (l₁ l₂ l₃ : List String) (a b : String),
          names = l₁ ++ a :: (l₂ ++ b :: l₃) →
          (∀ r ∈ l₁ ++ [a], ¬ ReachStar avail r b) →
          order.indexOf a < order.indexOf b)) ∧
    ((∃ r ∈ names, ∃ c, ReachStar avail r c ∧ DepPath avail c c) →
      ∃ e, getInstallationOrder avail fuel cf names = some (.error e) ∧
        DepPath avail e.circular e.circular) := by
  have hcount : countNew avail ([] : List String) < fuel := by
    rw [countNew_nil]; exact hfuel
  have hinv0 : RInv avail ⟨[], []⟩ := ⟨by simp, by simp, by simp⟩
  constructor
  · intro hA
    obtain ⟨s', Δ, hrun, hord, hvis, hnew, hall, hreachΔ, hinv⟩ :=
      (visit_acyclic avail cf hA hcf fuel).2 names ⟨[], []⟩ hcount hinv0 (by simp)
    refine ⟨s'.order, ?_, hinv.nodup, hall, ?_, ?_⟩
    · unfold getInstallationOrder
      rw [hrun]
    · exact fun a b hp ha => order_topological hinv.closed a b hp ha
    · intro l₁ l₂ l₃ a b hsplit hnr
      obtain ⟨s₁, Δ₁, hrun₁, hord₁, hvis₁, hnew₁, hall₁, hreach₁, hinv₁⟩ :=
        (visit_acyclic avail cf hA hcf fuel).2 (l₁ ++ [a]) ⟨[], []⟩ hcount hinv0 (by simp)
      have hcount₁ : countNew avail s₁.visited < fuel := by
        have : countNew avail s₁.visited ≤ countNew avail ([] : List String) :=
          @countNew_mono avail ([] : List String) s₁.visited (by simp)
        omega
      have hreach₁' : ∀ x ∈ s₁.visited, x ∉ s₁.order →
          ∀ d ∈ (l₂ ++ b :: l₃), DepPath avail x d := by
        intro x hx hxo
        exfalso
        rcases (hvis₁ x).mp hx with h | h
        · simp at h
        · exact hxo (by rw [hord₁]; simpa using h)
      obtain ⟨s₂, Δ₂, hrun₂, hord₂, hvis₂, hnew₂, hall₂, hreach₂, hinv₂⟩ :=
        (visit_acyclic avail cf hA hcf fuel).2 (l₂ ++ b :: l₃) s₁ hcount₁ hinv₁ hreach₁'
      have hcomb : visitList avail cf fuel names ⟨[], []⟩ = some (.ok s₂) := by
        rw [hsplit,
          show l₁ ++ a :: (l₂ ++ b :: l₃) = (l₁ ++ [a]) ++ (l₂ ++ b :: l₃) by simp,
          visitList_append, hrun₁]
        exact hrun₂
      have hs'eq : s₂ = s' := by
        rw [hcomb] at hrun
        simp only [Option.some.injEq, Except.ok.injEq] at hrun
        exact hrun
      subst hs'eq
      have ha₁ : a ∈ s₁.order := hall₁ a (by simp)
      have hb₁ : b ∉ s₁.order := by
        intro hb
        have hbv := hinv₁.sub b hb
        rcases (hvis₁ b).mp hbv with h | h
        · simp at h
        · obtain ⟨d, hd, hr⟩ := hreach₁ b h
          exact hnr d hd hr
      rw [hord₂, List.indexOf_append_of_mem ha₁, List.indexOf_append_of_not_mem hb₁]
      have := List.indexOf_lt_length.mpr ha₁
      omega
  · rintro ⟨r, hr, c₀, hreach, hcyc⟩
    have hne := (visit_ne_none avail cf hcf fuel).2 names ⟨[], []⟩ hcount
    cases hrun : visitList avail cf fuel names ⟨[], []⟩ with
    | none => exact absurd hrun hne
    | some res =>
      cases res with
      | ok s' =>
        exfalso
        obtain ⟨_, horig, hreq⟩ := (visit_ok_facts avail cf fuel).2 names ⟨[], []⟩ s' hrun
        have hrv := hreq r hr
        rcases horig r hrv with h | h
        · simp at h
        · exact checkCircAux_none_no_cycle cf r [] h c₀ hreach hcyc
      | error e =>
        refine ⟨e, ?_, ?_⟩
        · unfold getInstallationOrder
          rw [hrun]
        · have hsrc := (visit_error_src avail cf fuel).2 names ⟨[], []⟩ e hrun
          exact checkCircAux_cycle cf e.name [] e.circular trivial hsrc

/-- C1 witness. -/
theorem claim_C1_witness :
    ∃ e, getInstallationOrder [("a", ["b"]), ("b", ["a"])] 3 3 ["a"] = some (.error e) ∧
      DepPath [("a", ["b"]), ("b", ["a"])] e.circular e.circular := by
  apply (claim_C1 [("a", ["b"]), ("b", ["a"])] ["a"] 3 3 (by decide) (by decide)).2
  refine ⟨"a", by decide, "a", Or.inl rfl, ?_⟩
  exact DepPath.cons (b := "b") (by decide) (DepPath.single (by decide))

/-- C3 (amended): a selection list naming the same plugin more than once is
not rejected: under an acyclic graph (and sufficient fuel) the resolver
succeeds, the returned order contains every requested plugin, and no plugin
appears in it twice — the duplicate occurrences are silently ignored. -/
theorem claim_C3 (avail : DepGraph) (names : List String) (fuel cf : Nat)
    (hfuel : (availNames avail).length < fuel) (hcf : (availNames avail).length < cf)
    (hA : Acyclic avail) :
    ∃ order, getInstallationOrder avail fuel cf names = some (.ok order) ∧
      order.Nodup ∧ (∀ n ∈ names, n ∈ order) := by
  have hcount : countNew avail ([] : List String) < fuel := by
    rw [countNew_nil]; exact hfuel
  have hinv0 : RInv avail ⟨[], []⟩ := ⟨by simp, by simp, by simp⟩
  obtain ⟨s', Δ, hrun, hord, hvis, hnew, hall, hreachΔ, hinv⟩ :=
    (visit_acyclic avail cf hA hcf fuel).2 names ⟨[], []⟩ hcount hinv0 (by simp)
  refine ⟨s'.order, ?_, hinv.nodup, hall⟩
  unfold getInstallationOrder
  rw [hrun]

/-- C3 witness: the duplicate selection `["a", "a"]` resolves successfully. -/
theorem claim_C3_witness :
    ∃ order, getInstallationOrder [("a", [])] 2 2 ["a", "a"] = some (.ok order) ∧
      order.Nodup ∧ (∀ n ∈ ["a", "a"], n ∈ order) := by
  apply claim_C3 [("a", [])] ["a", "a"] 2 2 (by decide) (by decide)
  apply acyclic_of_no_deps
  intro n
  by_cases h : n = "a"
  · subst h; rfl
  · simp only [getPluginDependencies, lookupKey]
    rw [if_neg (fun hx => h hx.symm)]
    rfl

/-- C4 counterexample: `deepMerge` of an array containing a duplicate element
with itself collapses the duplicate (`new Set` semantics), so the result is
not the original tree. -/
theorem claim_C4_counterexample :
    deepMerge (.arr [.num 1, .num 1]) (.arr [.num 1, .num 1]) = .arr [.num 1] ∧
    (Json.arr [.num 1, .num 1] ≠ Json.arr [.num 1]) := by
  constructor
  · rw [deepMerge]
    decide
  · decide

/-- C4 (amended): `deepMerge x x = x` for every JSON tree whose object keys
are unique and whose arrays contain no duplicate elements; an array with a
duplicate element is deduplicated, so idempotence holds exactly on
duplicate-free trees. -/
theorem claim_C4 (x : Json) (h : WFDup x) : deepMerge x x = x := by
  induction h with
  | null => rw [deepMerge] <;> simp
  | bool b => rw [deepMerge] <;> simp
  | num n => rw [deepMerge] <;> simp
  | str s => rw [deepMerge] <;> simp
  | arr hn hall ih =>
    rw [deepMerge]
    congr 1
    exact dedupF_append_self hn
  | obj hn hall ih =>
    rw [deepMerge]
    congr 1
    apply mergeInto_self
    · intro kv hkv
      exact lookupKey_of_mem_nodup hn hkv
    · intro kv hkv
      exact mergeVal_self (ih kv hkv)

/-- C4 witness. -/
theorem claim_C4_witness :
    deepMerge (.obj [("a", .arr [.num 1, .str "s"])]) (.obj [("a", .arr [.num 1, .str "s"])])
      = .obj [("a", .arr [.num 1, .str "s"])] := by
  apply claim_C4
  refine WFDup.obj (by simp) ?_
  intro kv hkv
  simp only [List.mem_singleton] at hkv
  subst hkv
  refine WFDup.arr (by decide) ?_
  intro x hx
  simp only [List.mem_cons, List.mem_singleton] at hx
  rcases hx with rfl | rfl | hx
  · exact WFDup.num 1
  · exact WFDup.str "s"
  · simp at hx

/-- C2 counterexample: requesting plugin `b`, which declares a dependency on
the unavailable plugin `ghost`, does not fail — `getInstallationOrder`
returns the order `["ghost", "b"]` containing the missing name. -/
theorem claim_C2_counterexample :
    getInstallationOrder [("b", ["ghost"])] 3 3 ["b"] = some (.ok ["ghost", "b"]) ∧
    "ghost" ∉ availNames [("b", ["ghost"])] := by
  decide

/-- C2 (amended): a declared dependency that is not among the available
plugins is treated as a plugin with no dependencies — `getPluginDependencies`
returns `[]` for it and resolution proceeds without error, placing the
missing name in the installation order before its requester, as in the
`ghost` scenario. -/
theorem claim_C2 (avail : DepGraph) (name : String) (h : name ∉ availNames avail) :
    getPluginDependencies avail name = [] ∧
    getInstallationOrder [("b", ["ghost"])] 3 3 ["b"] = some (.ok ["ghost", "b"]) := by
  refine ⟨?_, by decide⟩
  rw [getPluginDependencies, lookupKey_eq_none h]
  rfl

/-- C2 witness. -/
theorem claim_C2_witness :
    getPluginDependencies [("b", ["ghost"])] "ghost" = [] ∧
    getInstallationOrder [("b", ["ghost"])] 3 3 ["b"] = some (.ok ["ghost", "b"]) :=
  claim_C2 [("b", ["ghost"])] "ghost" (by decide)

/-- C3 counterexample: a selection list naming plugin `a` twice is not
rejected — the resolver succeeds and returns the order `["a"]`. -/
theorem claim_C3_counterexample :
    getInstallationOrder [("a", [])] 3 3 ["a", "a"] = some (.ok ["a"]) := by
  decide

/-- C5: merging two skill rules takes `type`, `enforcement` and `priority`
from the incoming (later) fragment when present and from the existing rule
otherwise, each trigger array of the merge is the deduplicated union of the
two contributions, and the two fragments of the given scenario merge to the
stated result with keywords `["x", "y"]`. -/
theorem claim_C5 (e i : SkillRule) :
    (mergeSkillRules e i).type = i.type.or e.type ∧
    (mergeSkillRules e i).enforcement = i.enforcement.or e.enforcement ∧
    (mergeSkillRules e i).priority = i.priority.or e.priority ∧
    (∀ x, x ∈ ruleKeywords (mergeSkillRules e i) ↔ x ∈ ruleKeywords e ∨ x ∈ ruleKeywords i) ∧
    (ruleKeywords (mergeSkillRules e i)).Nodup ∧
    (∀ x, x ∈ ruleIntents (mergeSkillRules e i) ↔ x ∈ ruleIntents e ∨ x ∈ ruleIntents i) ∧
    (ruleIntents (mergeSkillRules e i)).Nodup ∧
    (∀ x, x ∈ rulePathPats (mergeSkillRules e i) ↔ x ∈ rulePathPats e ∨ x ∈ rulePathPats i) ∧
    (rulePathPats (mergeSkillRules e i)).Nodup ∧
    (∀ x, x ∈ rulePathExcl (mergeSkillRules e i) ↔ x ∈ rulePathExcl e ∨ x ∈ rulePathExcl i) ∧
    (rulePathExcl (mergeSkillRules e i)).Nodup ∧
    (∀ x, x ∈ ruleContentPats (mergeSkillRules e i) ↔
      x ∈ ruleContentPats e ∨ x ∈ ruleContentPats i) ∧
    (ruleContentPats (mergeSkillRules e i)).Nodup ∧
    mergeSkillRulesFragments
        [[("a", ⟨some .domain, some .suggest, some .low, some ⟨some ["x"], none⟩, none⟩)],
         [("a", ⟨some .domain, some .block, some .critical, some ⟨some ["y"], none⟩, none⟩)]]
      = [("a", ⟨some .domain, some .block, some .critical, some ⟨some ["x", "y"], none⟩, none⟩)] := by
  refine ⟨rfl, rfl, rfl, ?_, ?_, ?_, ?_, ?_, ?_, ?_, ?_, ?_, ?_, by decide⟩
  · intro x
    unfold ruleKeywords mergeSkillRules
    cases e.promptTriggers <;> cases i.promptTriggers <;>
      simp [mem_mergeArrays_getD]
  · unfold ruleKeywords mergeSkillRules
    cases e.promptTriggers <;> cases i.promptTriggers <;>
      first
        | (simp only [Option.isSome_some, Bool.or_true, Bool.true_or, if_true,
            Option.bind_some]
           exact nodup_mergeArrays_getD _ _)
        | simp
  · intro x
    unfold ruleIntents mergeSkillRules
    cases e.promptTriggers <;> cases i.promptTriggers <;>
      simp [mem_mergeArrays_getD]
  · unfold ruleIntents mergeSkillRules
    cases e.promptTriggers <;> cases i.promptTriggers <;>
      first
        | (simp only [Option.isSome_some, Bool.or_true, Bool.true_or, if_true,
            Option.bind_some]
           exact nodup_mergeArrays_getD _ _)
        | simp
  · intro x
    unfold rulePathPats mergeSkillRules
    cases e.fileTriggers <;> cases i.fileTriggers <;>
      simp [mem_mergeArrays_getD]
  · unfold rulePathPats mergeSkillRules
    cases e.fileTriggers <;> cases i.fileTriggers <;>
      first
        | (simp only [Option.isSome_some, Bool.or_true, Bool.true_or, if_true,
            Option.bind_some]
           exact nodup_mergeArrays_getD _ _)
        | simp
  · intro x
    unfold rulePathExcl mergeSkillRules
    cases e.fileTriggers <;> cases i.fileTriggers <;>
      simp [mem_mergeArrays_getD]
  · unfold rulePathExcl mergeSkillRules
    cases e.fileTriggers <;> cases i.fileTriggers <;>
      first
        | (simp only [Option.isSome_some, Bool.or_true, Bool.true_or, if_true,
            Option.bind_some]
           exact nodup_mergeArrays_getD _ _)
        | simp
  · intro x
    unfold ruleContentPats mergeSkillRules
    cases e.fileTriggers <;> cases i.fileTriggers <;>
      simp [mem_mergeArrays_getD]
  · unfold ruleContentPats mergeSkillRules
    cases e.fileTriggers <;> cases i.fileTriggers <;>
      first
        | (simp only [Option.isSome_some, Bool.or_true, Bool.true_or, if_true,
            Option.bind_some]
           exact nodup_mergeArrays_getD _ _)
        | simp

/-- C10 witness. -/
theorem claim_C10_witness :
    ("FOO" ∈ extractVariables "\x7b\x7bFOO\x7d\x7d" ∧
      validVarName "FOO" = true) ∧
    replaceVariables "\x7b\x7blowercase\x7d\x7d" [("lowercase", "v")]
      = "\x7b\x7blowercase\x7d\x7d" := by
  constructor
  · exact ⟨by decide, claim_C10.1 "\x7b\x7bFOO\x7d\x7d" "FOO" (by decide)⟩
  · exact claim_C10.2.1 [("lowercase", "v")]

/-- C8: `deepMerge` is associative on trees without scalar conflicts.
`WFKeys` is the JavaScript-object invariant that an object map holds each key
once; pairwise `Compat` formalizes "no scalar conflicts": at every shared
position the two trees are both arrays, both objects, or the same value.
Arrays merge by concatenation plus `Set` dedup (associative by the dedup
laws), objects merge key-wise, and on equal scalars the last writer is the
same on both sides. -/
theorem claim_C8 (a b c : Json) (hwa : WFKeys a) (hwb : WFKeys b)
    (hwc : WFKeys c) (hab : Compat a b) (hac : Compat a c) (hbc : Compat b c) :
    deepMerge (deepMerge a b) c = deepMerge a (deepMerge b c) := by
  cases hab with
  | arr ta tb =>
    obtain ⟨tc, rfl⟩ := hbc.arr_left
    rw [deepMerge_arr_arr, deepMerge_arr_arr, deepMerge_arr_arr,
      deepMerge_arr_arr, dedupF_dedupF_append, dedupF_append_dedupF,
      List.append_assoc]
  | @obj ta tb hh =>
    obtain ⟨tc, rfl⟩ := hbc.obj_left
    have H := (merge_master (optSize (some (Json.obj ta)) + jsize (Json.obj tb)
        + jsize (Json.obj tc))).2.2
      (some (.obj ta)) (.obj tb) (.obj tc) le_rfl hwa hwb hwc
      (Compat.obj hh) hac hbc
    rw [mergeVal_some_obj, mergeVal_some_obj, mergeVal_some_obj,
      mergeVal_some_obj] at H
    rw [deepMerge_obj_obj, deepMerge_obj_obj, deepMerge_obj_obj,
      deepMerge_obj_obj]
    exact H
  | scalar _ h1 h2 =>
    have hcb : c = a := hbc.scalar_right h1 h2
    subst hcb
    rw [deepMerge_scalar h1 h2, deepMerge_scalar h1 h2, deepMerge_scalar h1 h2]

/-- C8 witness: associativity at a concrete compatible triple — two objects
sharing the scalar entry `"n" ↦ 1` and two sharing the array entry `"l"`. -/
theorem claim_C8_witness :
    deepMerge
        (deepMerge (Json.obj [("n", Json.num 1)])
          (Json.obj [("n", Json.num 1), ("l", Json.arr [Json.num 1, Json.num 2])]))
        (Json.obj [("l", Json.arr [Json.num 2, Json.num 3])])
      = deepMerge (Json.obj [("n", Json.num 1)])
          (deepMerge
            (Json.obj [("n", Json.num 1), ("l", Json.arr [Json.num 1, Json.num 2])])
            (Json.obj [("l", Json.arr [Json.num 2, Json.num 3])])) := by
  refine claim_C8 _ _ _ ?_ ?_ ?_ ?_ ?_ ?_
  · refine WFKeys.obj (by simp) ?_
    intro kv hkv
    simp only [List.mem_singleton] at hkv
    subst hkv
    exact WFKeys.num 1
  · refine WFKeys.obj (by simp) ?_
    intro kv hkv
    simp only [List.mem_cons, List.not_mem_nil, or_false] at hkv
    rcases hkv with rfl | rfl
    · exact WFKeys.num 1
    · exact WFKeys.arr _
  · refine WFKeys.obj (by simp) ?_
    intro kv hkv
    simp only [List.mem_singleton] at hkv
    subst hkv
    exact WFKeys.arr _
  · refine Compat.obj ?_
    intro k v w hv hw
    rw [lookupKey] at hv hw
    by_cases hk : "n" = k
    · rw [if_pos hk] at hv hw
      cases hv
      cases hw
      exact Compat.scalar _ (by simp) (by simp)
    · rw [if_neg hk] at hv
      rw [lookupKey] at hv
      exact Option.noConfusion hv
  · refine Compat.obj ?_
    intro k v w hv hw
    rw [lookupKey] at hv hw
    by_cases hk : "n" = k
    · subst hk
      rw [if_neg (by decide)] at hw
      rw [lookupKey] at hw
      exact Option.noConfusion hw
    · rw [if_neg hk] at hv
      rw [lookupKey] at hv
      exact Option.noConfusion hv
  · refine Compat.obj ?_
    intro k v w hv hw
    rw [lookupKey] at hv hw
    by_cases hk : "l" = k
    · subst hk
      rw [if_pos rfl] at hw
      rw [if_neg (by decide), lookupKey, if_pos rfl] at hv
      cases hv
      cases hw
      exact Compat.arr _ _
    · rw [if_neg hk] at hw
      rw [lookupKey] at hw
      exact Option.noConfusion hw

/-- C9 counterexample: with the context mapping A to "\x7b\x7b", replacing in
"\x7b\x7bA\x7d\x7dA\x7d\x7d" yields "\x7b\x7bA\x7d\x7d" — the spliced-in value
joins the text that follows into a fresh placeholder — and extraction of the
output reports the context key A. -/
theorem claim_C9_counterexample :
    "A" ∈ extractVariables
        (replaceVariables "\x7b\x7bA\x7d\x7dA\x7d\x7d" [("A", "\x7b\x7b")]) ∧
    lookupKey [("A", "\x7b\x7b")] "A" = some "\x7b\x7b" := by
  decide

/-- C9 (amended): the claim's first half fails as stated, because a context
value may splice a new placeholder into the output (see the counterexample).
It holds for plain contexts (`GoodCtx`: every value nonempty with no braces
and no name characters), and the second half — replacement is a no-op on a
text from which extraction reads no placeholder — holds unconditionally. -/
theorem claim_C9 (ctx : List (String × String)) :
    (GoodCtx ctx = true →
      ∀ text : String, ∀ nm ∈ extractVariables (replaceVariables text ctx),
        lookupKey ctx nm = none) ∧
    (∀ text : String, extractVariables text = [] →
        replaceVariables text ctx = text) := by
  constructor
  · intro hg text nm hnm
    have hnm' : nm ∈ (extChars (repChars ctx text.data)).map String.mk :=
      mem_dedupF.mp hnm
    obtain ⟨n, hn, rfl⟩ := List.mem_map.mp hnm'
    exact extRep_no_keys ctx hg text.data n hn
  · intro text he
    have he' : extChars text.data = [] :=
      List.map_eq_nil_iff.mp (dedupF_eq_nil he)
    show String.mk (repChars ctx text.data) = text
    rw [repChars_no_tokens ctx text.data he']

/-- C9 witness: with the plain context mapping A to "-", the theorem yields
the concrete non-key fact for the re-emitted unknown placeholder B, and the
concrete no-op on a placeholder-free text. -/
theorem claim_C9_witness :
    GoodCtx [("A", "-")] = true ∧
    lookupKey [("A", "-")] "B" = none ∧
    "B" ∈ extractVariables (replaceVariables "\x7b\x7bB\x7d\x7d" [("A", "-")]) ∧
    replaceVariables "plain" [("A", "-")] = "plain" := by
  refine ⟨by decide, ?_, by decide, ?_⟩
  · exact (claim_C9 [("A", "-")]).1 (by decide) "\x7b\x7bB\x7d\x7d" "B" (by decide)
  · exact (claim_C9 [("A", "-")]).2 "plain" (by decide)

end CCKit
